import Mathlib

/-!
Verification of the RAG subsystem of the wiki-generator repository.

The TypeScript sources are shallowly embedded:
* JS numbers are modelled as `ℚ` (exact rational arithmetic); the two
  non-algebraic float operations, `Math.sqrt` (in cosine similarity) and
  `Math.log` (in BM25 idf), are threaded through as explicit oracle
  parameters `sqrt, lg : ℚ → ℚ`, since no verified property depends on
  their numeric values.
* JS `Map` objects are modelled as association lists preserving insertion
  order, matching JS `Map` iteration semantics.
* `Array.prototype.sort` with comparator `(a, b) => b.score - a.score` is
  modelled as a stable merge sort by descending score (ES2019 requires
  sort stability).
* `throw`/`try`/`catch` and rejected promises are modelled with `Except`.
* External AI capabilities (embedding API, LLM code ranker, code
  summarizer) are modelled as function parameters.
-/

/-! ## Data model (src/lib/rag/types.ts) -/

/-- `CodeChunk.context` from types.ts (plus `calls`, used by code-graph.ts). -/
structure ChunkContext where
  imports : List String
  exports : List String
  parentClass : Option String
  jsDoc : Option String
  dependencies : List String
  calls : List String
  deriving Repr, DecidableEq

/-- `CodeChunk` from types.ts.  The TS `type` field is a union of string
literals; it is kept as a `String` here.  Optional TS fields are `Option`s,
except `compressed` where absence and `false` are observably identical. -/
structure CodeChunk where
  id : String
  filePath : String
  startLine : Nat
  endLine : Nat
  type : String
  name : String
  language : String
  code : String
  context : ChunkContext
  embedding : Option (List ℚ)
  keywords : List String
  compressed : Bool
  originalSize : Option Nat
  deriving Repr, DecidableEq

/-- `SearchResult` from hybrid-search.ts (the optional `rank` field is never
populated anywhere in the sources and is omitted). -/
structure SearchResult where
  chunk : CodeChunk
  score : ℚ
  deriving Repr, DecidableEq

/-! ## Stable sorting

JS `Array.prototype.sort` is stable (ES2019).  A stable sort with a total
transitive comparator has a unique output, so it is modelled by a
structurally recursive stable insertion sort: an element is inserted before
the first position whose element does not have to stay in front of it, which
keeps equal-priority elements in their original relative order. -/

/-- Insert `x` into `l`, keeping in front only elements `y` that must stay
in front (`le y x` and not `le x y`): the insertion point of a stable sort. -/
def insertLe {α : Type} (le : α → α → Bool) (x : α) : List α → List α
  | [] => [x]
  | y :: ys => if le y x && !(le x y) then y :: insertLe le x ys else x :: y :: ys

/-- Stable sort with comparator `le` (`le a b` = "`a` may come before `b`"). -/
def insertSort {α : Type} (le : α → α → Bool) : List α → List α
  | [] => []
  | x :: xs => insertLe le x (insertSort le xs)

theorem insertLe_decomp {α : Type} (le : α → α → Bool) (x : α) :
    ∀ l : List α, ∃ P S, l = P ++ S ∧ insertLe le x l = P ++ x :: S ∧
      ∀ y ∈ P, le y x = true ∧ le x y = false := by
  intro l
  induction l with
  | nil => exact ⟨[], [], rfl, rfl, by simp⟩
  | cons y ys ih =>
    by_cases hc : (le y x && !(le x y)) = true
    · obtain ⟨P, S, hl, hins, hP⟩ := ih
      refine ⟨y :: P, S, by simp [hl], ?_, ?_⟩
      · simp [insertLe, hc, hins]
      · intro z hz
        rcases List.mem_cons.mp hz with hz | hz
        · subst hz
          simp only [Bool.and_eq_true, Bool.not_eq_true'] at hc
          exact hc
        · exact hP z hz
    · refine ⟨[], y :: ys, rfl, ?_, by simp⟩
      simp only [insertLe, hc]
      simp

theorem insertLe_perm {α : Type} (le : α → α → Bool) (x : α) (l : List α) :
    List.Perm (insertLe le x l) (x :: l) := by
  obtain ⟨P, S, hl, hins, _⟩ := insertLe_decomp le x l
  rw [hins, hl]
  exact List.perm_middle

theorem insertSort_perm {α : Type} (le : α → α → Bool) (l : List α) :
    List.Perm (insertSort le l) l := by
  induction l with
  | nil => exact List.Perm.refl _
  | cons x xs ih =>
    exact ((insertLe_perm le x (insertSort le xs)).trans (ih.cons x))

theorem mem_insertSort {α : Type} (le : α → α → Bool) {l : List α} {a : α} :
    a ∈ insertSort le l ↔ a ∈ l :=
  (insertSort_perm le l).mem_iff

theorem length_insertSort {α : Type} (le : α → α → Bool) (l : List α) :
    (insertSort le l).length = l.length :=
  (insertSort_perm le l).length_eq

theorem insertLe_pairwise {α : Type} {le : α → α → Bool}
    (trans : ∀ a b c, le a b = true → le b c = true → le a c = true)
    (total : ∀ a b, le a b = true ∨ le b a = true)
    (x : α) {l : List α} (h : l.Pairwise (fun a b => le a b = true)) :
    (insertLe le x l).Pairwise (fun a b => le a b = true) := by
  induction l with
  | nil => simp [insertLe]
  | cons y ys ih =>
    rcases List.pairwise_cons.mp h with ⟨hy, hys⟩
    by_cases hc : (le y x && !(le x y)) = true
    · simp only [insertLe, hc, if_pos]
      refine List.pairwise_cons.mpr ⟨?_, ih hys⟩
      intro z hz
      rcases (insertLe_perm le x ys).mem_iff.mp hz with hz
      rcases List.mem_cons.mp hz with hz | hz
      · subst hz
        simp only [Bool.and_eq_true] at hc
        exact hc.1
      · exact hy z hz
    · simp only [insertLe, hc, if_neg]
      have hxy : le x y = true := by
        simp only [Bool.and_eq_true, Bool.not_eq_true', not_and,
          Bool.not_eq_false] at hc
        rcases total x y with h1 | h1
        · exact h1
        · exact hc h1
      refine List.pairwise_cons.mpr ⟨?_, h⟩
      intro z hz
      rcases List.mem_cons.mp hz with hz | hz
      · subst hz; exact hxy
      · exact trans x y z hxy (hy z hz)

theorem insertSort_pairwise {α : Type} {le : α → α → Bool}
    (trans : ∀ a b c, le a b = true → le b c = true → le a c = true)
    (total : ∀ a b, le a b = true ∨ le b a = true) (l : List α) :
    (insertSort le l).Pairwise (fun a b => le a b = true) := by
  induction l with
  | nil => simp [insertSort]
  | cons x xs ih => exact insertLe_pairwise trans total x ih

theorem insertLe_sublist {α : Type} (le : α → α → Bool) (x : α)
    {s l : List α} (h : List.Sublist s l) :
    List.Sublist s (insertLe le x l) := by
  obtain ⟨P, S, hl, hins, _⟩ := insertLe_decomp le x l
  rw [hins]
  subst hl
  exact h.trans (List.Sublist.append_left (List.sublist_cons_self x S) P)

/-- Stability: a correctly ordered pair keeps its relative order. -/
theorem insertSort_pair_sublist {α : Type} (le : α → α → Bool)
    {x y : α} (hxy : le x y = true) :
    ∀ {l : List α}, List.Sublist [x, y] l →
      List.Sublist [x, y] (insertSort le l) := by
  intro l
  induction l with
  | nil => intro h; exact absurd (List.Sublist.length_le h) (by simp)
  | cons z zs ih =>
    intro h
    rcases h with _ | ⟨_, _⟩
    case cons h' =>
      exact insertLe_sublist le z (ih h')
    case cons₂ h' =>
      -- here z = x and [y] <+ zs
      obtain ⟨P, S, hl, hins, hP⟩ := insertLe_decomp le x (insertSort le zs)
      show List.Sublist [x, y] (insertLe le x (insertSort le zs))
      rw [hins]
      have hy : y ∈ insertSort le zs :=
        (mem_insertSort le).mpr (List.singleton_sublist.mp h')
      have hyS : y ∈ S := by
        rw [hl] at hy
        rcases List.mem_append.mp hy with hy | hy
        · exact absurd hxy (by simp [(hP y hy).2])
        · exact hy
      have : List.Sublist [x, y] (x :: S) :=
        List.Sublist.cons₂ x (List.singleton_sublist.mpr hyS)
      exact this.trans (List.sublist_append_right P (x :: S)) |>.trans
        (List.Sublist.refl _)

/-! ### Descending sort by score -/

/-- The comparator used by every `.sort((a, b) => b.score - a.score)` call:
`a` may be placed before `b` iff `a`'s score is at least `b`'s. -/
def scoreDescLe {α : Type} (score : α → ℚ) (a b : α) : Bool :=
  decide (score b ≤ score a)

/-- Stable descending sort by a score projection. -/
def sortByScoreDesc {α : Type} (score : α → ℚ) (l : List α) : List α :=
  insertSort (scoreDescLe score) l

theorem scoreDescLe_trans {α : Type} (score : α → ℚ) :
    ∀ a b c : α, scoreDescLe score a b = true → scoreDescLe score b c = true →
      scoreDescLe score a c = true := by
  intro a b c hab hbc
  simp only [scoreDescLe, decide_eq_true_eq] at *
  exact le_trans hbc hab

theorem scoreDescLe_total {α : Type} (score : α → ℚ) :
    ∀ a b : α, scoreDescLe score a b = true ∨ scoreDescLe score b a = true := by
  intro a b
  simp only [scoreDescLe, decide_eq_true_eq]
  exact le_total (score b) (score a)

theorem sortByScoreDesc_perm {α : Type} (score : α → ℚ) (l : List α) :
    List.Perm (sortByScoreDesc score l) l :=
  insertSort_perm _ l

theorem mem_sortByScoreDesc {α : Type} (score : α → ℚ) {l : List α} {x : α} :
    x ∈ sortByScoreDesc score l ↔ x ∈ l :=
  mem_insertSort _

theorem length_sortByScoreDesc {α : Type} (score : α → ℚ) (l : List α) :
    (sortByScoreDesc score l).length = l.length :=
  length_insertSort _ l

theorem sortByScoreDesc_sorted {α : Type} (score : α → ℚ) (l : List α) :
    (sortByScoreDesc score l).Pairwise (fun a b => score b ≤ score a) := by
  have h := insertSort_pairwise (scoreDescLe_trans score) (scoreDescLe_total score) l
  exact h.imp (by intro a b hab; simpa [scoreDescLe] using hab)

/-- Stability: an already correctly ordered pair keeps its relative order. -/
theorem sortByScoreDesc_stable {α : Type} (score : α → ℚ) {l : List α}
    {a b : α} (hab : score b ≤ score a) (h : List.Sublist [a, b] l) :
    List.Sublist [a, b] (sortByScoreDesc score l) :=
  insertSort_pair_sublist _ (by simpa [scoreDescLe] using hab) h

/-! ## src/lib/rag/hybrid-search.ts -/

/-- `RRF_K = 60` — the RRF constant. -/
def RRF_K : ℚ := 60

/-- Sequential map where each element may throw (`Except`): the semantics
of a JS `.map`/`Promise.all` whose body can reject. -/
def mapExcept {α β ε : Type} (f : α → Except ε β) : List α → Except ε (List β)
  | [] => .ok []
  | x :: xs => do
    let b ← f x
    let bs ← mapExcept f xs
    pure (b :: bs)

/-- `cosineSimilarity(a, b)`: throws when dimensions differ, otherwise
`dot / (sqrt(normA) * sqrt(normB))`, with `Math.sqrt` as oracle `sqrt`. -/
def cosineSimilarity (sqrt : ℚ → ℚ) (a b : List ℚ) : Except String ℚ :=
  if a.length ≠ b.length then
    .error "Vectors must have same dimensions"
  else
    let dotProduct := (List.zipWith (· * ·) a b).sum
    let normA := (a.map (fun x => x * x)).sum
    let normB := (b.map (fun x => x * x)).sum
    .ok (dotProduct / (sqrt normA * sqrt normB))

/-- `vectorSearch(queryEmbedding, chunks, topK)`: score every chunk that has
an embedding with cosine similarity, sort descending, take `topK`. -/
def vectorSearch (sqrt : ℚ → ℚ) (queryEmbedding : List ℚ)
    (chunks : List CodeChunk) (topK : Nat) :
    Except String (List SearchResult) := do
  let results ← mapExcept (fun c => do
    let score ← cosineSimilarity sqrt queryEmbedding (c.embedding.getD [])
    pure ({ chunk := c, score := score } : SearchResult))
    (chunks.filter (fun c => c.embedding.isSome))
  pure ((sortByScoreDesc (·.score) results).take topK)

/-- One `chunkScores.set`/`existing.score +=` step of `reciprocalRankFusion`:
if the id is present, add to its score in place (keeping the first-seen chunk
and its position), otherwise append a fresh entry — JS `Map` semantics. -/
def addScore : List SearchResult → CodeChunk → ℚ → List SearchResult
  | [], c, s => [{ chunk := c, score := s }]
  | r :: rest, c, s =>
    if r.chunk.id = c.id then { chunk := r.chunk, score := r.score + s } :: rest
    else r :: addScore rest c s

/-- Fold one ranked result list into the score map; `n` is the 0-based index
of `results`' head in its original list (`rank = n + 1`). -/
def rrfProcess (k : ℚ) : List SearchResult → Nat → List SearchResult →
    List SearchResult
  | m, _, [] => m
  | m, n, r :: rest => rrfProcess k (addScore m r.chunk (1 / (k + (n + 1)))) (n + 1) rest

/-- The fused score map of `reciprocalRankFusion`, before sorting/truncation. -/
def rrfScores (resultSets : List (List SearchResult)) (k : ℚ) :
    List SearchResult :=
  resultSets.foldl (fun m results => rrfProcess k m 0 results) []

/-- `reciprocalRankFusion(resultSets, topK, k)`. -/
def reciprocalRankFusion (resultSets : List (List SearchResult))
    (topK : Nat) (k : ℚ) : List SearchResult :=
  (sortByScoreDesc (·.score) (rrfScores resultSets k)).take topK

/-- Fused score of a chunk id, `none` if absent from the map. -/
def lookupScore (m : List SearchResult) (id : String) : Option ℚ :=
  (m.find? (fun r => r.chunk.id = id)).map (·.score)

/-! ## src/lib/rag/reranking.ts -/

/-- Result of the external `codeRankerAgent.execute` capability. -/
structure Ranking where
  score : ℚ
  explanation : String
  deriving Repr, DecidableEq

/-- Stage-3 scored candidate: the source builds
`{chunk, score, explanation}` objects. -/
structure LLMScored where
  chunk : CodeChunk
  score : ℚ
  explanation : String
  deriving Repr, DecidableEq

/-- The LLM code-ranker capability, as an oracle: it may fail (rejected
promise / thrown error) on any candidate. -/
def LLMScorer : Type := String → CodeChunk → Except String Ranking

/-- `rerankByEmbedding(queryEmbedding, candidates, topK)`: keep candidates
whose chunk has an embedding, score by cosine similarity (which can throw on
a dimension mismatch), sort descending, take `topK`. -/
def rerankByEmbedding (sqrt : ℚ → ℚ) (queryEmbedding : List ℚ)
    (candidates : List SearchResult) (topK : Nat) :
    Except String (List SearchResult) := do
  let scored ← mapExcept (fun r => do
    let s ← cosineSimilarity sqrt queryEmbedding (r.chunk.embedding.getD [])
    pure ({ chunk := r.chunk, score := s } : SearchResult))
    (candidates.filter (fun r => r.chunk.embedding.isSome))
  pure ((sortByScoreDesc (·.score) scored).take topK)

/-- Scoring of one stage-3 candidate, including the per-candidate
`try`/`catch`: a scorer failure yields score 0 and "Ranking failed". -/
def scoreCandidate (scorer : LLMScorer) (query : String)
    (r : SearchResult) : LLMScored :=
  match scorer query r.chunk with
  | .ok ranking =>
    { chunk := r.chunk, score := ranking.score, explanation := ranking.explanation }
  | .error _ =>
    { chunk := r.chunk, score := 0, explanation := "Ranking failed" }

/-- `rerankByLLM(query, candidates, topK)`: score every candidate (isolating
failures per candidate), sort by score descending, take `topK`. -/
def rerankByLLM (scorer : LLMScorer) (query : String)
    (candidates : List SearchResult) (topK : Nat) : List LLMScored :=
  (sortByScoreDesc (·.score) (candidates.map (scoreCandidate scorer query))).take topK

/-- Output of `rerankResults`. -/
structure RerankOutput where
  stage1 : List SearchResult
  stage2 : List SearchResult
  stage3 : List LLMScored
  deriving Repr, DecidableEq

/-- Configuration of `rerankResults`. -/
structure RerankConfig where
  stage2TopK : Nat
  stage3TopK : Nat
  deriving Repr, DecidableEq

/-- `rerankResults(query, queryEmbedding, hybridResults, config)` —
the full 3-stage pipeline. -/
def rerankResults (scorer : LLMScorer) (sqrt : ℚ → ℚ) (query : String)
    (queryEmbedding : List ℚ) (hybridResults : List SearchResult)
    (config : RerankConfig) : Except String RerankOutput := do
  let stage2 ← rerankByEmbedding sqrt queryEmbedding hybridResults config.stage2TopK
  pure { stage1 := hybridResults, stage2 := stage2,
         stage3 := rerankByLLM scorer query stage2 config.stage3TopK }

/-! ### Helper lemmas about `mapExcept` -/

theorem mapExcept_ok_length {α β ε : Type} (f : α → Except ε β) :
    ∀ (l : List α) (l' : List β), mapExcept f l = .ok l' → l'.length = l.length := by
  intro l
  induction l with
  | nil => intro l' h; simp [mapExcept, pure, Except.pure] at h; simp [← h]
  | cons x xs ih =>
    intro l' h
    cases hx : f x with
    | error e => simp [mapExcept, hx, Bind.bind, Except.bind] at h
    | ok b =>
      cases hxs : mapExcept f xs with
      | error e =>
        simp [mapExcept, hx, hxs, Bind.bind, Except.bind] at h
      | ok bs =>
        simp only [mapExcept, hx, hxs, Bind.bind, Except.bind, pure,
          Except.pure, Except.ok.injEq] at h
        subst h
        simp [ih bs hxs]

theorem mapExcept_ok_mem {α β ε : Type} (f : α → Except ε β) :
    ∀ (l : List α) (l' : List β), mapExcept f l = .ok l' →
      ∀ b ∈ l', ∃ a ∈ l, f a = .ok b := by
  intro l
  induction l with
  | nil =>
    intro l' h b hb
    simp [mapExcept, pure, Except.pure] at h
    subst h; simp at hb
  | cons x xs ih =>
    intro l' h b hb
    cases hx : f x with
    | error e => simp [mapExcept, hx, Bind.bind, Except.bind] at h
    | ok v =>
      cases hxs : mapExcept f xs with
      | error e =>
        simp [mapExcept, hx, hxs, Bind.bind, Except.bind] at h
      | ok vs =>
        simp only [mapExcept, hx, hxs, Bind.bind, Except.bind, pure,
          Except.pure, Except.ok.injEq] at h
        subst h
        rcases List.mem_cons.mp hb with hb | hb
        · exact ⟨x, List.mem_cons_self x xs, by rw [hx, hb]⟩
        · obtain ⟨a, ha, hfa⟩ := ih vs hxs b hb
          exact ⟨a, List.mem_cons_of_mem x ha, hfa⟩

/-! ### Narrowing properties of the reranking stages -/

theorem take_length_le {α : Type} (n : Nat) (l : List α) :
    (l.take n).length ≤ l.length := by
  simp only [List.length_take]
  exact min_le_right n l.length

theorem rerankByEmbedding_ok {sqrt : ℚ → ℚ} {queryEmbedding : List ℚ}
    {candidates : List SearchResult} {topK : Nat} {stage2 : List SearchResult}
    (h : rerankByEmbedding sqrt queryEmbedding candidates topK = .ok stage2) :
    stage2.length ≤ candidates.length ∧
      ∀ r ∈ stage2, r.chunk ∈ candidates.map (·.chunk) := by
  unfold rerankByEmbedding at h
  set f : SearchResult → Except String SearchResult := fun r => do
    let s ← cosineSimilarity sqrt queryEmbedding (r.chunk.embedding.getD [])
    pure ({ chunk := r.chunk, score := s } : SearchResult) with hf
  cases hm : mapExcept f (candidates.filter (fun r => r.chunk.embedding.isSome)) with
  | error e =>
    rw [hm] at h
    simp [Bind.bind, Except.bind] at h
  | ok scored =>
    rw [hm] at h
    simp only [Bind.bind, Except.bind, pure, Except.pure, Except.ok.injEq] at h
    subst h
    constructor
    · calc ((sortByScoreDesc (·.score) scored).take topK).length
          ≤ (sortByScoreDesc (·.score) scored).length := take_length_le _ _
        _ = scored.length := length_sortByScoreDesc _ _
        _ = (candidates.filter (fun r => r.chunk.embedding.isSome)).length :=
            mapExcept_ok_length f _ scored hm
        _ ≤ candidates.length := List.length_filter_le _ _
    · intro r hr
      have hr1 : r ∈ sortByScoreDesc (·.score) scored := List.mem_of_mem_take hr
      have hr2 : r ∈ scored := (mem_sortByScoreDesc _).mp hr1
      obtain ⟨a, ha, hfa⟩ := mapExcept_ok_mem f _ scored hm r hr2
      have hac : r.chunk = a.chunk := by
        rw [hf] at hfa
        cases hcs : cosineSimilarity sqrt queryEmbedding (a.chunk.embedding.getD []) with
        | error e => simp [hcs, Bind.bind, Except.bind] at hfa
        | ok v =>
          simp only [hcs, Bind.bind, Except.bind, pure, Except.pure,
            Except.ok.injEq] at hfa
          rw [← hfa]
      rw [hac]
      exact List.mem_map_of_mem _ (List.mem_of_mem_filter ha)

theorem scoreCandidate_chunk (scorer : LLMScorer) (query : String)
    (r : SearchResult) : (scoreCandidate scorer query r).chunk = r.chunk := by
  unfold scoreCandidate
  cases scorer query r.chunk <;> rfl

theorem rerankByLLM_narrowing (scorer : LLMScorer) (query : String)
    (candidates : List SearchResult) (topK : Nat) :
    (rerankByLLM scorer query candidates topK).length ≤ candidates.length ∧
      ∀ r ∈ rerankByLLM scorer query candidates topK,
        r.chunk ∈ candidates.map (·.chunk) := by
  unfold rerankByLLM
  constructor
  · calc ((sortByScoreDesc (·.score) (candidates.map (scoreCandidate scorer query))).take
        topK).length
        ≤ (sortByScoreDesc (·.score) (candidates.map (scoreCandidate scorer query))).length :=
          take_length_le _ _
      _ = (candidates.map (scoreCandidate scorer query)).length :=
          length_sortByScoreDesc _ _
      _ = candidates.length := List.length_map _ _
  · intro r hr
    have hr1 := (mem_sortByScoreDesc _).mp (List.mem_of_mem_take hr)
    obtain ⟨a, ha, hfa⟩ := List.mem_map.mp hr1
    have : r.chunk = a.chunk := by rw [← hfa]; exact scoreCandidate_chunk _ _ _
    rw [this]
    exact List.mem_map_of_mem _ ha

/-- C1: the three-stage reranking pipeline is strictly narrowing — whenever
`rerankResults` succeeds, `|stage2| ≤ |stage1|`, `|stage3| ≤ |stage2|`, every
chunk of the stage-2 result appears among the stage-1 chunks, and every chunk
of the stage-3 result appears among the stage-2 chunks; no stage reintroduces
a dropped candidate. -/
theorem rerankResults_strictly_narrowing (scorer : LLMScorer) (sqrt : ℚ → ℚ)
    (query : String) (queryEmbedding : List ℚ)
    (hybridResults : List SearchResult) (config : RerankConfig)
    (out : RerankOutput)
    (h : rerankResults scorer sqrt query queryEmbedding hybridResults config = .ok out) :
    out.stage2.length ≤ out.stage1.length ∧
      out.stage3.length ≤ out.stage2.length ∧
      (∀ r ∈ out.stage2, r.chunk ∈ out.stage1.map (·.chunk)) ∧
      (∀ r ∈ out.stage3, r.chunk ∈ out.stage2.map (·.chunk)) := by
  unfold rerankResults at h
  cases h2 : rerankByEmbedding sqrt queryEmbedding hybridResults config.stage2TopK with
  | error e =>
    rw [h2] at h
    simp [Bind.bind, Except.bind] at h
  | ok stage2 =>
    rw [h2] at h
    simp only [Bind.bind, Except.bind, pure, Except.pure, Except.ok.injEq] at h
    subst h
    obtain ⟨hlen2, hmem2⟩ := rerankByEmbedding_ok h2
    obtain ⟨hlen3, hmem3⟩ :=
      rerankByLLM_narrowing scorer query stage2 config.stage3TopK
    exact ⟨hlen2, hlen3, hmem2, hmem3⟩

/-- C1 witness: the narrowing theorem applied to a concrete successful run of
the pipeline (empty candidate set, failing scorer). -/
theorem rerankResults_strictly_narrowing_witness :
    (RerankOutput.mk [] [] []).stage2.length ≤ (RerankOutput.mk [] [] []).stage1.length ∧
      (RerankOutput.mk [] [] []).stage3.length ≤ (RerankOutput.mk [] [] []).stage2.length ∧
      (∀ r ∈ (RerankOutput.mk [] [] []).stage2,
        r.chunk ∈ (RerankOutput.mk [] [] []).stage1.map (·.chunk)) ∧
      (∀ r ∈ (RerankOutput.mk [] [] []).stage3,
        r.chunk ∈ (RerankOutput.mk [] [] []).stage2.map (·.chunk)) :=
  rerankResults_strictly_narrowing (fun _ _ => .error "down") id "q" [] []
    ⟨30, 10⟩ (RerankOutput.mk [] [] []) rfl

/-! ### Reciprocal rank fusion: fused-score lemmas -/

theorem lookupScore_nil (i : String) : lookupScore [] i = none := rfl

theorem lookupScore_cons (r : SearchResult) (rest : List SearchResult)
    (i : String) :
    lookupScore (r :: rest) i =
      if r.chunk.id = i then some r.score else lookupScore rest i := by
  by_cases h : r.chunk.id = i
  · rw [if_pos h]
    unfold lookupScore
    rw [List.find?_cons_of_pos _ (by simpa using h)]
    rfl
  · rw [if_neg h]
    unfold lookupScore
    rw [List.find?_cons_of_neg _ (by simpa using h)]

theorem lookupScore_addScore (m : List SearchResult) (c : CodeChunk) (s : ℚ)
    (i : String) :
    lookupScore (addScore m c s) i =
      if i = c.id then
        some (match lookupScore m i with | none => s | some t => t + s)
      else lookupScore m i := by
  induction m with
  | nil =>
    by_cases hi : i = c.id
    · rw [if_pos hi]
      show lookupScore [{ chunk := c, score := s }] i = _
      rw [lookupScore_cons, if_pos hi.symm, lookupScore_nil]
    · rw [if_neg hi]
      show lookupScore [{ chunk := c, score := s }] i = lookupScore [] i
      rw [lookupScore_cons, if_neg (fun h => hi h.symm)]
  | cons r rest ih =>
    by_cases hr : r.chunk.id = c.id
    · simp only [addScore, if_pos hr]
      by_cases hi : i = c.id
      · have hri : r.chunk.id = i := by rw [hr, hi]
        rw [if_pos hi, lookupScore_cons, lookupScore_cons, if_pos hri, if_pos hri]
      · have hri : ¬ r.chunk.id = i := by rw [hr]; exact fun h => hi h.symm
        rw [if_neg hi, lookupScore_cons, lookupScore_cons, if_neg hri, if_neg hri]
    · simp only [addScore, if_neg hr]
      by_cases hri : r.chunk.id = i
      · have hi : ¬ i = c.id := by rw [← hri]; exact fun h => hr h
        rw [if_neg hi, lookupScore_cons, lookupScore_cons, if_pos hri, if_pos hri]
      · rw [lookupScore_cons, if_neg hri, lookupScore_cons, if_neg hri, ih]

theorem lookupScore_rrfProcess_absent (k : ℚ) (i : String) :
    ∀ (results : List SearchResult) (m : List SearchResult) (n : Nat),
      (∀ x ∈ results, x.chunk.id ≠ i) →
      lookupScore (rrfProcess k m n results) i = lookupScore m i := by
  intro results
  induction results with
  | nil => intro m n _; rfl
  | cons r rest ih =>
    intro m n habs
    have hr : r.chunk.id ≠ i := habs r (List.mem_cons_self r rest)
    have hrest : ∀ x ∈ rest, x.chunk.id ≠ i :=
      fun x hx => habs x (List.mem_cons_of_mem r hx)
    show lookupScore (rrfProcess k (addScore m r.chunk (1 / (k + (n + 1)))) (n + 1) rest) i
        = lookupScore m i
    rw [ih _ _ hrest, lookupScore_addScore, if_neg (fun h => hr h.symm)]

/-- A chunk id has rank 1 in a ranked list and appears nowhere else in it. -/
def firstOnly (i : String) (l : List SearchResult) : Prop :=
  ∃ r t, l = r :: t ∧ r.chunk.id = i ∧ ∀ x ∈ t, x.chunk.id ≠ i

/-- A chunk id is absent from a ranked list. -/
def absentFrom (i : String) (l : List SearchResult) : Prop :=
  ∀ x ∈ l, x.chunk.id ≠ i

theorem lookupScore_rrfProcess_firstOnly (k : ℚ) (i : String)
    {l : List SearchResult} (m : List SearchResult) (h : firstOnly i l) :
    lookupScore (rrfProcess k m 0 l) i =
      some (match lookupScore m i with
            | none => 1 / (k + 1)
            | some t => t + 1 / (k + 1)) := by
  obtain ⟨r, t, hl, hr, ht⟩ := h
  subst hl
  show lookupScore (rrfProcess k (addScore m r.chunk (1 / (k + ((0 : Nat) + 1)))) (0 + 1) t) i
      = _
  rw [lookupScore_rrfProcess_absent k i t _ _ ht, lookupScore_addScore,
    if_pos hr.symm]
  norm_num

/-- C2: reciprocal rank fusion with `k = 60` gives a chunk ranked 1st in
exactly one of the three input lists (and absent from the other two) the
fused score `1/61`, and a chunk ranked 1st in all three lists the fused
score `3/61`; the fused output is sorted by descending score and truncated
to at most `topK` entries. -/
theorem reciprocalRankFusion_scores (l1 l2 l3 : List SearchResult)
    (i : String) (topK : Nat) :
    ((firstOnly i l1 ∧ absentFrom i l2 ∧ absentFrom i l3) ∨
     (absentFrom i l1 ∧ firstOnly i l2 ∧ absentFrom i l3) ∨
     (absentFrom i l1 ∧ absentFrom i l2 ∧ firstOnly i l3) →
      lookupScore (rrfScores [l1, l2, l3] RRF_K) i = some (1 / 61)) ∧
    (firstOnly i l1 ∧ firstOnly i l2 ∧ firstOnly i l3 →
      lookupScore (rrfScores [l1, l2, l3] RRF_K) i = some (3 / 61)) ∧
    (reciprocalRankFusion [l1, l2, l3] topK RRF_K).length ≤ topK ∧
    (reciprocalRankFusion [l1, l2, l3] topK RRF_K).Pairwise
      (fun a b => b.score ≤ a.score) := by
  have hfold : rrfScores [l1, l2, l3] RRF_K =
      rrfProcess RRF_K (rrfProcess RRF_K (rrfProcess RRF_K [] 0 l1) 0 l2) 0 l3 := rfl
  refine ⟨?_, ?_, ?_, ?_⟩
  · rintro (⟨h1, h2, h3⟩ | ⟨h1, h2, h3⟩ | ⟨h1, h2, h3⟩) <;> rw [hfold]
    · rw [lookupScore_rrfProcess_absent _ _ _ _ _ h3,
        lookupScore_rrfProcess_absent _ _ _ _ _ h2,
        lookupScore_rrfProcess_firstOnly _ _ _ h1,
        lookupScore_nil]
      show some (1 / (RRF_K + 1)) = _
      norm_num [RRF_K]
    · rw [lookupScore_rrfProcess_absent _ _ _ _ _ h3,
        lookupScore_rrfProcess_firstOnly _ _ _ h2,
        lookupScore_rrfProcess_absent _ _ _ _ _ h1,
        lookupScore_nil]
      show some (1 / (RRF_K + 1)) = _
      norm_num [RRF_K]
    · rw [lookupScore_rrfProcess_firstOnly _ _ _ h3,
        lookupScore_rrfProcess_absent _ _ _ _ _ h2,
        lookupScore_rrfProcess_absent _ _ _ _ _ h1,
        lookupScore_nil]
      show some (1 / (RRF_K + 1)) = _
      norm_num [RRF_K]
  · rintro ⟨h1, h2, h3⟩
    rw [hfold,
      lookupScore_rrfProcess_firstOnly _ _ _ h3,
      lookupScore_rrfProcess_firstOnly _ _ _ h2,
      lookupScore_rrfProcess_firstOnly _ _ _ h1,
      lookupScore_nil]
    show some (1 / (RRF_K + 1) + 1 / (RRF_K + 1) + 1 / (RRF_K + 1)) = _
    norm_num [RRF_K]
  · unfold reciprocalRankFusion
    simp only [List.length_take]
    exact min_le_left _ _
  · unfold reciprocalRankFusion
    exact List.Pairwise.take (sortByScoreDesc_sorted _ _)

/-- A minimal concrete chunk used by concrete instantiations. -/
def testChunk (i : String) : CodeChunk :=
  { id := i, filePath := "src/a.ts", startLine := 1, endLine := 2,
    type := "function", name := i, language := "typescript", code := "x",
    context := ⟨[], [], none, none, [], []⟩, embedding := none,
    keywords := [], compressed := false, originalSize := none }

/-- C2 witness: concrete fused scores — `1/61` for a chunk ranked 1st in one
list only, `3/61` for a chunk ranked 1st in all three. -/
theorem reciprocalRankFusion_scores_witness :
    lookupScore (rrfScores [[⟨testChunk "a", 1⟩], [], []] RRF_K) "a" =
      some (1 / 61) ∧
    lookupScore (rrfScores [[⟨testChunk "a", 1⟩], [⟨testChunk "a", 1⟩],
      [⟨testChunk "a", 1⟩]] RRF_K) "a" = some (3 / 61) := by
  have hfo : firstOnly "a" [⟨testChunk "a", 1⟩] :=
    ⟨⟨testChunk "a", 1⟩, [], rfl, rfl, by intro x hx; exact absurd hx (List.not_mem_nil x)⟩
  have hab : absentFrom "a" ([] : List SearchResult) :=
    fun x hx => absurd hx (List.not_mem_nil x)
  exact ⟨(reciprocalRankFusion_scores [⟨testChunk "a", 1⟩] [] [] "a" 5).1
      (Or.inl ⟨hfo, hab, hab⟩),
    (reciprocalRankFusion_scores [⟨testChunk "a", 1⟩] [⟨testChunk "a", 1⟩]
      [⟨testChunk "a", 1⟩] "a" 5).2.1 ⟨hfo, hfo, hfo⟩⟩

/-- C8: a failing relevance-scoring call for one stage-3 candidate does not
abort the pipeline: that candidate is scored 0 with the note
"Ranking failed", stays in the scored candidate set (which keeps one entry
per candidate), and the stage still sorts the full set descending and
truncates it to `topK`. -/
theorem rerankByLLM_failure_isolated (scorer : LLMScorer) (query : String)
    (candidates : List SearchResult) (topK : Nat) (r : SearchResult)
    (e : String) (hmem : r ∈ candidates)
    (herr : scorer query r.chunk = .error e) :
    rerankByLLM scorer query candidates topK =
      (sortByScoreDesc (·.score)
        (candidates.map (scoreCandidate scorer query))).take topK ∧
    scoreCandidate scorer query r =
      { chunk := r.chunk, score := 0, explanation := "Ranking failed" } ∧
    ({ chunk := r.chunk, score := 0, explanation := "Ranking failed" } : LLMScored)
      ∈ candidates.map (scoreCandidate scorer query) ∧
    (candidates.map (scoreCandidate scorer query)).length = candidates.length := by
  have hfail : scoreCandidate scorer query r =
      { chunk := r.chunk, score := 0, explanation := "Ranking failed" } := by
    unfold scoreCandidate
    rw [herr]
  refine ⟨rfl, hfail, ?_, List.length_map _ _⟩
  rw [← hfail]
  exact List.mem_map_of_mem _ hmem

/-- C8 witness: a concrete run where the scorer fails on the only candidate. -/
theorem rerankByLLM_failure_isolated_witness :
    rerankByLLM (fun _ _ => .error "boom") "q" [⟨testChunk "a", 1⟩] 10 =
      (sortByScoreDesc (·.score)
        ([⟨testChunk "a", 1⟩].map
          (scoreCandidate (fun _ _ => .error "boom") "q"))).take 10 ∧
    scoreCandidate (fun _ _ => .error "boom") "q" ⟨testChunk "a", 1⟩ =
      { chunk := testChunk "a", score := 0, explanation := "Ranking failed" } ∧
    ({ chunk := testChunk "a", score := 0, explanation := "Ranking failed" } : LLMScored)
      ∈ [⟨testChunk "a", 1⟩].map (scoreCandidate (fun _ _ => .error "boom") "q") ∧
    ([⟨testChunk "a", 1⟩].map
      (scoreCandidate (fun _ _ => .error "boom") "q")).length =
      [(⟨testChunk "a", 1⟩ : SearchResult)].length :=
  rerankByLLM_failure_isolated (fun _ _ => .error "boom") "q"
    [⟨testChunk "a", 1⟩] 10 ⟨testChunk "a", 1⟩ "boom"
    (List.mem_singleton_self _) rfl

/-! ## src/lib/rag/bm25.ts (src/unnamed/part_017) -/

/-- `BM25_K1 = 1.2` — term-frequency saturation. -/
def BM25_K1 : ℚ := 12 / 10

/-- `BM25_B = 0.75` — length normalization. -/
def BM25_B : ℚ := 3 / 4

/-- A JS `\w` word character: `[A-Za-z0-9_]`. -/
def isWordChar (c : Char) : Bool := c.isAlphanum || c = '_'

/-- Accumulating scanner for `tokenize`: split on runs of non-word
characters, dropping empty pieces (`cur` holds the current word reversed). -/
def tokenizeAux : List Char → List Char → List String
  | [], cur => if cur.isEmpty then [] else [String.mk cur.reverse]
  | c :: cs, cur =>
    if isWordChar c then tokenizeAux cs (c :: cur)
    else if cur.isEmpty then tokenizeAux cs []
    else String.mk cur.reverse :: tokenizeAux cs []

/-- `tokenize(text)`: lowercase, split on `\W+`, keep nonempty terms. -/
def tokenize (text : String) : List String :=
  tokenizeAux (text.data.map Char.toLower) []

/-- Document frequency of a term over the tokenized corpus. -/
def docFreq (documents : List (List String)) (term : String) : Nat :=
  (documents.filter (fun d => decide (term ∈ d))).length

/-- `calculateIDF(documents, totalDocs)` as a lookup function: the JS map has
an entry (with value `log((N - df + 0.5)/(df + 0.5) + 1)`) exactly for terms
occurring in at least one document; `Math.log` is the oracle `lg`. -/
def calculateIDF (lg : ℚ → ℚ) (documents : List (List String))
    (totalDocs : Nat) (term : String) : Option ℚ :=
  if docFreq documents term = 0 then none
  else
    some (lg (((totalDocs : ℚ) - (docFreq documents term : ℚ) + 1 / 2) /
      ((docFreq documents term : ℚ) + 1 / 2) + 1))

/-- `calculateBM25Score(queryTerms, docTerms, idf, avgDocLength, k1, b)`:
fold over the query terms, skipping terms with zero term frequency, adding
`idf(t) * (tf*(k1+1)) / (tf + k1*(1 - b + b*(docLength/avgDocLength)))`
(a missing idf entry contributes factor 0, as `idf.get(term) || 0`). -/
def calculateBM25Score (queryTerms docTerms : List String)
    (idf : String → Option ℚ) (avgDocLength : ℚ) (k1 b : ℚ) : ℚ :=
  queryTerms.foldl (fun score term =>
    if (docTerms.count term : ℚ) = 0 then score
    else
      score + ((idf term).getD 0) *
        (((docTerms.count term : ℚ) * (k1 + 1)) /
          ((docTerms.count term : ℚ) +
            k1 * (1 - b + b * ((docTerms.length : ℚ) / avgDocLength))))) 0

/-- The spec's description of the BM25 score: the sum, over query terms
present in the document, of
`idf(t) * tf*(k1+1) / (tf + k1*(1 - b + b*docLen/avgDocLen))`. -/
def bm25SpecScore (queryTerms docTerms : List String)
    (idf : String → Option ℚ) (avgDocLength : ℚ) (k1 b : ℚ) : ℚ :=
  ((queryTerms.filter (fun t => decide (t ∈ docTerms))).map (fun t =>
    ((idf t).getD 0) *
      (((docTerms.count t : ℚ) * (k1 + 1)) /
        ((docTerms.count t : ℚ) +
          k1 * (1 - b + b * ((docTerms.length : ℚ) / avgDocLength)))))).sum

/-- `BM25Index` internal state after `build` (or `fromState`). -/
structure BM25Index where
  documents : List (List String)
  chunks : List CodeChunk
  idf : String → Option ℚ
  avgDocLength : ℚ

/-- `BM25Index.build(chunks)` with document-text projection
`getDocumentText` and `Math.log` oracle `lg`. -/
def BM25Index.build (lg : ℚ → ℚ) (getDocumentText : CodeChunk → String)
    (chunks : List CodeChunk) : BM25Index :=
  { documents := chunks.map (fun c => tokenize (getDocumentText c))
    chunks := chunks
    idf := calculateIDF lg (chunks.map (fun c => tokenize (getDocumentText c)))
      (chunks.map (fun c => tokenize (getDocumentText c))).length
    avgDocLength :=
      (((chunks.map (fun c => tokenize (getDocumentText c))).map
          (fun d => (d.length : ℚ))).sum) /
        ((chunks.map (fun c => tokenize (getDocumentText c))).length : ℚ) }

/-- The score list of `BM25Index.search` before filtering and sorting. -/
def BM25Index.scoredDocs (idx : BM25Index) (query : String) :
    List SearchResult :=
  (idx.documents.zip idx.chunks).map (fun p =>
    { chunk := p.2
      score := calculateBM25Score (tokenize query) p.1 idx.idf
        idx.avgDocLength BM25_K1 BM25_B })

/-- `BM25Index.search(query, topK)`: score all documents, keep scores `> 0`,
sort by score descending (stable), take `topK`. -/
def BM25Index.search (idx : BM25Index) (query : String) (topK : Nat) :
    List SearchResult :=
  (sortByScoreDesc (·.score)
    ((idx.scoredDocs query).filter (fun r => decide (0 < r.score)))).take topK

/-! ### BM25 properties -/

theorem calculateBM25Score_foldl (docTerms : List String)
    (idf : String → Option ℚ) (avgDocLength : ℚ) (k1 b : ℚ) :
    ∀ (queryTerms : List String) (a : ℚ),
      queryTerms.foldl (fun score term =>
        if (docTerms.count term : ℚ) = 0 then score
        else
          score + ((idf term).getD 0) *
            (((docTerms.count term : ℚ) * (k1 + 1)) /
              ((docTerms.count term : ℚ) +
                k1 * (1 - b + b * ((docTerms.length : ℚ) / avgDocLength))))) a
      = a + bm25SpecScore queryTerms docTerms idf avgDocLength k1 b := by
  intro queryTerms
  induction queryTerms with
  | nil => intro a; simp [bm25SpecScore]
  | cons t ts ih =>
    intro a
    by_cases ht : t ∈ docTerms
    · have hcount : ¬ ((docTerms.count t : ℚ) = 0) := by
        simp only [Nat.cast_eq_zero, List.count_eq_zero]
        exact fun h => h ht
      simp only [List.foldl_cons, if_neg hcount, ih]
      unfold bm25SpecScore
      rw [List.filter_cons_of_pos (by simpa using ht)]
      simp only [List.map_cons, List.sum_cons]
      ring
    · have hcount : (docTerms.count t : ℚ) = 0 := by
        simp only [Nat.cast_eq_zero, List.count_eq_zero]
        exact ht
      simp only [List.foldl_cons, if_pos hcount, ih]
      unfold bm25SpecScore
      rw [List.filter_cons_of_neg (by simpa using ht)]

/-- The implementation's fold equals the spec's per-term sum. -/
theorem calculateBM25Score_eq_spec (queryTerms docTerms : List String)
    (idf : String → Option ℚ) (avgDocLength : ℚ) (k1 b : ℚ) :
    calculateBM25Score queryTerms docTerms idf avgDocLength k1 b =
      bm25SpecScore queryTerms docTerms idf avgDocLength k1 b := by
  unfold calculateBM25Score
  rw [calculateBM25Score_foldl]
  ring

/-- A document containing none of the query terms scores exactly 0. -/
theorem calculateBM25Score_zero (queryTerms docTerms : List String)
    (idf : String → Option ℚ) (avgDocLength : ℚ) (k1 b : ℚ)
    (h : ∀ t ∈ queryTerms, t ∉ docTerms) :
    calculateBM25Score queryTerms docTerms idf avgDocLength k1 b = 0 := by
  rw [calculateBM25Score_eq_spec]
  unfold bm25SpecScore
  have : queryTerms.filter (fun t => decide (t ∈ docTerms)) = [] := by
    rw [List.filter_eq_nil_iff]
    intro t ht
    simpa using h t ht
  rw [this]
  simp

/-- The concrete BM25 index used to refute the exactness part of the
query claim (`fun q => q - 1` stands in for `Math.log`; it agrees with `ln`
in sign at the evaluated points). -/
def bm25CE : BM25Index :=
  BM25Index.build (fun q => q - 1) (fun c => c.code)
    [testChunk "a", testChunk "b"]

theorem bm25CE_idf : bm25CE.idf "x" = some (1 / 5) := by
  have h1 : List.map (fun c => tokenize c.code) [testChunk "a", testChunk "b"]
      = [["x"], ["x"]] := by decide
  show calculateIDF (fun q => q - 1)
      (List.map (fun c => tokenize c.code) [testChunk "a", testChunk "b"])
      (List.map (fun c => tokenize c.code) [testChunk "a", testChunk "b"]).length
      "x" = some (1 / 5)
  rw [h1]
  have h2 : docFreq [["x"], ["x"]] "x" = 2 := by decide
  unfold calculateIDF
  rw [h2]
  norm_num

theorem bm25CE_avg : bm25CE.avgDocLength = 1 := by
  have h1 : List.map (fun c => tokenize c.code) [testChunk "a", testChunk "b"]
      = [["x"], ["x"]] := by decide
  show (((List.map (fun c => tokenize c.code)
        [testChunk "a", testChunk "b"]).map (fun d => (d.length : ℚ))).sum) /
      ((List.map (fun c => tokenize c.code)
        [testChunk "a", testChunk "b"]).length : ℚ) = 1
  rw [h1]
  norm_num

theorem bm25CE_score : calculateBM25Score (tokenize "x") ["x"] bm25CE.idf
    bm25CE.avgDocLength BM25_K1 BM25_B = 1 / 5 := by
  have ht : tokenize "x" = ["x"] := by decide
  have hc : List.count "x" ["x"] = 1 := by decide
  rw [ht]
  simp only [calculateBM25Score, List.foldl_cons, List.foldl_nil, hc,
    bm25CE_idf, bm25CE_avg]
  norm_num [BM25_K1, BM25_B]

theorem bm25CE_scored : bm25CE.scoredDocs "x" =
    [⟨testChunk "a", 1 / 5⟩, ⟨testChunk "b", 1 / 5⟩] := by
  have hdocs : bm25CE.documents = [["x"], ["x"]] := by decide
  have hchunks : bm25CE.chunks = [testChunk "a", testChunk "b"] := by decide
  unfold BM25Index.scoredDocs
  rw [hdocs, hchunks]
  show [(⟨testChunk "a", calculateBM25Score (tokenize "x") ["x"] bm25CE.idf
      bm25CE.avgDocLength BM25_K1 BM25_B⟩ : SearchResult),
    ⟨testChunk "b", calculateBM25Score (tokenize "x") ["x"] bm25CE.idf
      bm25CE.avgDocLength BM25_K1 BM25_B⟩] = _
  rw [bm25CE_score]

/-- C3 counterexample: `search` does not return all positively scoring
chunks — the `topK` truncation can drop one.  Both chunks of `bm25CE` score
`1/5 > 0` on the query, but `search` with `topK = 1` returns one result. -/
theorem bm25CE_filter :
    (bm25CE.scoredDocs "x").filter (fun r => decide (0 < r.score)) =
      [⟨testChunk "a", 1 / 5⟩, ⟨testChunk "b", 1 / 5⟩] := by
  have hpos : (decide ((0 : ℚ) < 1 / 5)) = true := by
    rw [decide_eq_true_eq]
    norm_num
  rw [bm25CE_scored]
  simp only [List.filter_cons, List.filter_nil, hpos, if_pos]

theorem bm25_search_not_all_positive :
    ((bm25CE.scoredDocs "x").filter (fun r => decide (0 < r.score))).length = 2 ∧
    (bm25CE.search "x" 1).length = 1 := by
  refine ⟨by rw [bm25CE_filter]; rfl, ?_⟩
  unfold BM25Index.search
  rw [bm25CE_filter]
  simp only [List.length_take, length_insertSort, sortByScoreDesc,
    List.length_cons, List.length_nil]
  rfl

/-- C3 (amended): a BM25 query returns the first `topK` of exactly the
chunks whose score is `> 0`, sorted by score descending with ties broken by
original chunk order (stable sort); each document's score is the sum over
query terms present in the document of
`idf(t) * tf*(k1+1)/(tf + k1*(1 - b + b*docLen/avgDocLen))`, the idf lookup
is `log((N - df + 0.5)/(df + 0.5) + 1)` computed over terms with `df > 0`,
and a document containing none of the query terms scores exactly 0 and is
excluded. -/
theorem bm25_search_spec (lg : ℚ → ℚ) (getDocumentText : CodeChunk → String)
    (chunks : List CodeChunk) (query : String) (topK : Nat) :
    (let idx := BM25Index.build lg getDocumentText chunks;
    (idx.search query topK =
      (sortByScoreDesc (·.score)
        ((idx.scoredDocs query).filter (fun r => decide (0 < r.score)))).take topK) ∧
    (∀ r ∈ idx.search query topK, 0 < r.score ∧ r ∈ idx.scoredDocs query) ∧
    (((idx.scoredDocs query).filter (fun r => decide (0 < r.score))).length ≤ topK →
      List.Perm (idx.search query topK)
        ((idx.scoredDocs query).filter (fun r => decide (0 < r.score)))) ∧
    (idx.search query topK).Pairwise (fun a b => b.score ≤ a.score) ∧
    (∀ a b, List.Sublist [a, b]
        ((idx.scoredDocs query).filter (fun r => decide (0 < r.score))) →
      b.score ≤ a.score →
      List.Sublist [a, b] (sortByScoreDesc (·.score)
        ((idx.scoredDocs query).filter (fun r => decide (0 < r.score))))) ∧
    (∀ r ∈ idx.scoredDocs query, ∀ d ∈ idx.documents,
      r.score = calculateBM25Score (tokenize query) d idx.idf idx.avgDocLength
          BM25_K1 BM25_B →
      r.score = bm25SpecScore (tokenize query) d idx.idf idx.avgDocLength
          BM25_K1 BM25_B) ∧
    (∀ term, idx.idf term =
      if docFreq idx.documents term = 0 then none
      else some (lg (((idx.documents.length : ℚ) -
          (docFreq idx.documents term : ℚ) + 1 / 2) /
        ((docFreq idx.documents term : ℚ) + 1 / 2) + 1))) ∧
    (∀ d ∈ idx.documents, (∀ t ∈ tokenize query, t ∉ d) →
      calculateBM25Score (tokenize query) d idx.idf idx.avgDocLength
        BM25_K1 BM25_B = 0)) := by
  refine ⟨rfl, ?_, ?_, ?_, ?_, ?_, ?_, ?_⟩
  · intro r hr
    have h1 : r ∈ sortByScoreDesc (·.score)
        ((BM25Index.build lg getDocumentText chunks |>.scoredDocs query).filter
          (fun r => decide (0 < r.score))) := List.mem_of_mem_take hr
    have h2 := (mem_sortByScoreDesc _).mp h1
    exact ⟨by simpa using (List.of_mem_filter h2), List.mem_of_mem_filter h2⟩
  · intro hlen
    unfold BM25Index.search
    rw [List.take_of_length_le (by rw [length_sortByScoreDesc]; exact hlen)]
    exact sortByScoreDesc_perm _ _
  · exact List.Pairwise.take (sortByScoreDesc_sorted _ _)
  · intro a b hab hscore
    exact sortByScoreDesc_stable _ hscore hab
  · intro r _ d _ h
    rw [h]
    exact calculateBM25Score_eq_spec _ _ _ _ _ _
  · intro term
    rfl
  · intro d _ h
    exact calculateBM25Score_zero _ _ _ _ _ _ h

/-- C3 witness: on `bm25CE` with `topK = 5`, `search` is a permutation of
the positively scoring chunks (the truncation hypothesis holds there). -/
theorem bm25_search_spec_witness :
    List.Perm (bm25CE.search "x" 5)
      ((bm25CE.scoredDocs "x").filter (fun r => decide (0 < r.score))) := by
  have h := (bm25_search_spec (fun q => q - 1) (fun c => c.code)
    [testChunk "a", testChunk "b"] "x" 5).2.2.1
  apply h
  show ((bm25CE.scoredDocs "x").filter (fun r => decide (0 < r.score))).length ≤ 5
  rw [bm25CE_filter]
  simp

/-! ## src/lib/rag/code-chunker.ts — positions and line ranges

File contents are modelled as `List Char`.  A tree-sitter node carries a
byte range `[startIndex, endIndex)`; its `startPosition.row`/
`endPosition.row` are the newline counts before those offsets. -/

/-- JS `content.split('\n')` over characters. -/
def linesOf : List Char → List (List Char)
  | [] => [[]]
  | c :: cs =>
    if c = '\n' then [] :: linesOf cs
    else
      match linesOf cs with
      | [] => [[c]]
      | l :: ls => (c :: l) :: ls

/-- JS `lines.join('\n')` over characters. -/
def joinLines : List (List Char) → List Char
  | [] => []
  | [l] => l
  | l :: ls => l ++ '\n' :: joinLines ls

/-- The tree-sitter row of byte offset `i` in `cs`: newlines before `i`. -/
def rowOf (cs : List Char) (i : Nat) : Nat :=
  (cs.take i).countP (fun c => decide (c = '\n'))

/-- Offset `i` is at column 0 (tree-sitter `startPosition.column = 0`). -/
def atLineStart (cs : List Char) (i : Nat) : Prop :=
  i = 0 ∨ cs[i - 1]? = some '\n'

/-! A tree-sitter syntax node (children as a two-sorted forest so that all
recursions are structural); `name` abstracts the `extractName` field lookup
in the external tree-sitter node. -/
mutual
inductive SNode : Type where
  | mk (type : String) (name : String) (startIndex endIndex : Nat)
    (children : SForest)
  deriving Repr, DecidableEq
inductive SForest : Type where
  | nil
  | cons (n : SNode) (f : SForest)
  deriving Repr, DecidableEq
end

def SNode.type : SNode → String
  | .mk t _ _ _ _ => t

def SNode.name : SNode → String
  | .mk _ n _ _ _ => n

def SNode.startIndex : SNode → Nat
  | .mk _ _ s _ _ => s

def SNode.endIndex : SNode → Nat
  | .mk _ _ _ e _ => e

def SNode.children : SNode → SForest
  | .mk _ _ _ _ f => f

/-! JS string primitives, implemented structurally over the character list
so that they compute inside the kernel (Lean's own `String.trim` etc. do
not reduce there). -/

/-- JS `s.startsWith(p)`. -/
def jsStartsWith (s p : String) : Bool := p.data.isPrefixOf s.data

/-- JS `s.endsWith(p)`. -/
def jsEndsWith (s p : String) : Bool := p.data.isSuffixOf s.data

/-- JS `s.trim()` (ASCII whitespace). -/
def jsTrim (s : String) : String :=
  String.mk (((s.data.dropWhile Char.isWhitespace).reverse.dropWhile
    Char.isWhitespace).reverse)

/-- JS `list.join(sep)`. -/
def jsJoin (sep : String) : List String → String
  | [] => ""
  | [x] => x
  | x :: xs => x ++ sep ++ jsJoin sep xs

/-- `extractImports(code)`: lines whose trimmed form starts with one of
the module-inclusion markers of the supported languages. -/
def isImportLine (line : String) : Bool :=
  jsStartsWith line "import " || jsStartsWith line "from " ||
    jsStartsWith line "import(" || jsStartsWith line "use "

def extractImports (code : List Char) : List String :=
  ((linesOf code).map (fun l => jsTrim (String.mk l))).filter isImportLine

/-- One step of `extractJSDoc`'s upward scan over trimmed lines, in the
source's cascade order: JSDoc markers collect and continue; a docstring
marker collects and stops; `//`/`#` collect and continue; other nonempty
lines stop; blank lines are skipped. -/
def jsDocCollect (lines : List String) : List Nat → List String → List String
  | [], acc => acc
  | i :: rest, acc =>
    if jsStartsWith (jsTrim (lines.getD i "")) "/**" ||
        jsStartsWith (jsTrim (lines.getD i "")) "*" ||
        jsEndsWith (jsTrim (lines.getD i "")) "*/" then
      jsDocCollect lines rest (jsTrim (lines.getD i "") :: acc)
    else if jsStartsWith (jsTrim (lines.getD i "")) "\x22\x22\x22" ||
        jsStartsWith (jsTrim (lines.getD i "")) "\x27\x27\x27" then
      jsTrim (lines.getD i "") :: acc
    else if jsStartsWith (jsTrim (lines.getD i "")) "//" ||
        jsStartsWith (jsTrim (lines.getD i "")) "#" then
      jsDocCollect lines rest (jsTrim (lines.getD i "") :: acc)
    else if 0 < (jsTrim (lines.getD i "")).length then acc
    else jsDocCollect lines rest acc

/-- The row indices visited by `extractJSDoc`'s loop
(`i = startRow - 1` down while `i ≥ 0 ∧ i ≥ startRow - 10`). -/
def jsDocIndices (startRow : Nat) : List Nat :=
  (List.range 10).filterMap
    (fun d => if d < startRow then some (startRow - 1 - d) else none)

/-- `extractJSDoc(node, lines)` (the node enters only through its start
row): scan up to 10 lines above for a contiguous comment block; `undefined`
when nothing was collected. -/
def extractJSDoc (lines : List String) (startRow : Nat) : Option String :=
  match jsDocCollect lines (jsDocIndices startRow) [] with
  | [] => none
  | acc => some (jsJoin "\n" acc)

/-- `createChunkId(filePath, startLine)`. -/
def createChunkId (filePath : String) (startLine : Nat) : String :=
  filePath ++ ":" ++ toString startLine

/-- `extractChunk(node, filePath, content, lines, language, chunkType,
parentClass)`.  `exports`/`dependencies` are `[]` in the source;
`keywords` (`extractKeywords`) is not modelled — no claim depends on it. -/
def extractChunk (filePath : String) (content : List Char) (language : String)
    (chunkType : String) (parentClass : Option String) (node : SNode) :
    CodeChunk :=
  { id := createChunkId filePath (rowOf content node.startIndex + 1)
    filePath := filePath
    startLine := rowOf content node.startIndex + 1
    endLine := rowOf content node.endIndex + 1
    type := chunkType
    name := node.name
    language := language
    code := String.mk ((content.take node.endIndex).drop node.startIndex)
    context :=
      { imports := extractImports ((content.take node.endIndex).drop node.startIndex)
        exports := []
        parentClass := parentClass
        jsDoc := extractJSDoc ((linesOf content).map (fun l => String.mk l))
          (rowOf content node.startIndex)
        dependencies := []
        calls := [] }
    embedding := none
    keywords := []
    compressed := false
    originalSize := none }

/-- The 1-indexed inclusive line range `content[startLine-1 : endLine]` of
the claim: `content.split('\n').slice(startLine-1, endLine).join('\n')`. -/
def linesSlice (content : List Char) (startLine endLine : Nat) : List Char :=
  joinLines (((linesOf content).drop (startLine - 1)).take
    (endLine - (startLine - 1)))

/-! ### Line-range lemmas -/

theorem rowOf_zero (cs : List Char) : rowOf cs 0 = 0 := by
  simp [rowOf]

theorem rowOf_cons_nl (cs : List Char) (s : Nat) :
    rowOf ('\n' :: cs) (s + 1) = rowOf cs s + 1 := by
  unfold rowOf
  rw [List.take_succ_cons, List.countP_cons]
  simp

theorem rowOf_cons_other {c : Char} (hc : c ≠ '\n') (cs : List Char) (s : Nat) :
    rowOf (c :: cs) (s + 1) = rowOf cs s := by
  unfold rowOf
  rw [List.take_succ_cons, List.countP_cons]
  simp [hc]

theorem linesOf_cons_nl (cs : List Char) :
    linesOf ('\n' :: cs) = [] :: linesOf cs := by
  simp [linesOf]

theorem linesOf_ne_nil (cs : List Char) : linesOf cs ≠ [] := by
  cases cs with
  | nil => simp [linesOf]
  | cons c cs =>
    unfold linesOf
    by_cases h : c = '\n'
    · simp [h]
    · simp only [h, if_neg, ite_false]
      cases linesOf cs <;> simp

theorem linesOf_cons_other {c : Char} (hc : c ≠ '\n') {cs : List Char}
    {l : List Char} {ls : List (List Char)} (hl : linesOf cs = l :: ls) :
    linesOf (c :: cs) = (c :: l) :: ls := by
  unfold linesOf
  rw [if_neg hc, hl]

theorem rowOf_mono (cs : List Char) {i j : Nat} (h : i ≤ j) :
    rowOf cs i ≤ rowOf cs j := by
  unfold rowOf
  have heq : cs.take i = (cs.take j).take i := by
    rw [List.take_take]
    rw [Nat.min_eq_left h]
  rw [heq]
  exact (List.take_sublist _ _).countP_le _

theorem rowOf_add (cs : List Char) (s e : Nat) (h : s ≤ e) :
    rowOf cs e = rowOf cs s + rowOf (cs.drop s) (e - s) := by
  unfold rowOf
  rw [show cs.take e = cs.take s ++ (cs.drop s).take (e - s) by
    rw [← List.take_add]
    congr 1
    omega]
  rw [List.countP_append]

theorem joinLines_cons_cons (c : Char) (l : List Char) (t : List (List Char)) :
    joinLines ((c :: l) :: t) = c :: joinLines (l :: t) := by
  cases t <;> simp [joinLines]

theorem linesOf_drop (cs : List Char) :
    ∀ s : Nat, atLineStart cs s →
      (linesOf cs).drop (rowOf cs s) = linesOf (cs.drop s) := by
  induction cs with
  | nil =>
    intro s _
    simp [rowOf, linesOf]
  | cons c cs ih =>
    intro s hs
    match s with
    | 0 => simp [rowOf_zero]
    | Nat.succ k =>
      have hnl : (c :: cs)[k]? = some '\n' := by
        rcases hs with hs | hs
        · exact absurd hs (by omega)
        · simpa using hs
      match k with
      | 0 =>
        have hc : c = '\n' := by simpa using hnl
        subst hc
        rw [rowOf_cons_nl, rowOf_zero, linesOf_cons_nl]
        simp
      | Nat.succ j =>
        have hcs : cs[j]? = some '\n' := by simpa using hnl
        have hstart : atLineStart cs (j + 1) := Or.inr (by simpa using hcs)
        have ihj := ih (j + 1) hstart
        by_cases hc : c = '\n'
        · subst hc
          rw [rowOf_cons_nl, linesOf_cons_nl, List.drop_succ_cons,
            List.drop_succ_cons]
          exact ihj
        · have hpos : 1 ≤ rowOf cs (j + 1) := by
            unfold rowOf
            rw [Nat.succ_le_iff]
            rw [List.countP_pos_iff]
            refine ⟨'\n', ?_, by simp⟩
            refine List.getElem?_mem (l := cs.take (j + 1)) (n := j) ?_
            rw [List.getElem?_take_of_lt (by omega)]
            exact hcs
          obtain ⟨m, hm⟩ : ∃ m, rowOf cs (j + 1) = m + 1 :=
            ⟨rowOf cs (j + 1) - 1, by omega⟩
          obtain ⟨l, ls, hl⟩ : ∃ l ls, linesOf cs = l :: ls := by
            cases hls : linesOf cs with
            | nil => exact absurd hls (linesOf_ne_nil cs)
            | cons l ls => exact ⟨l, ls, rfl⟩
          rw [rowOf_cons_other hc, linesOf_cons_other hc hl,
            List.drop_succ_cons, hm, List.drop_succ_cons]
          rw [hl, hm, List.drop_succ_cons] at ihj
          exact ihj

theorem take_succ_ne_nil {α : Type} {l : List α} (h : l ≠ []) (n : Nat) :
    l.take (n + 1) ≠ [] := by
  cases l with
  | nil => exact absurd rfl h
  | cons x xs => simp [List.take_succ_cons]

theorem linesOf_take (cs : List Char) :
    ∀ e : Nat, e ≤ cs.length → (e = cs.length ∨ cs[e]? = some '\n') →
      joinLines ((linesOf cs).take (rowOf cs e + 1)) = cs.take e := by
  induction cs with
  | nil =>
    intro e he _
    have he0 : e = 0 := by simpa using he
    subst he0
    simp [linesOf, rowOf_zero, joinLines]
  | cons c cs ih =>
    intro e he hb
    match e with
    | 0 =>
      have hc : c = '\n' := by
        rcases hb with hb | hb
        · exact absurd hb (by simp)
        · simpa using hb
      subst hc
      rw [rowOf_zero, linesOf_cons_nl, List.take_succ_cons, List.take_zero]
      rfl
    | Nat.succ k =>
      have hk : k ≤ cs.length := by simpa using he
      have hkb : k = cs.length ∨ cs[k]? = some '\n' := by
        rcases hb with hb | hb
        · left; simpa using hb
        · right; simpa using hb
      have ihk := ih k hk hkb
      by_cases hc : c = '\n'
      · subst hc
        rw [rowOf_cons_nl, linesOf_cons_nl, List.take_succ_cons]
        obtain ⟨t, ts, hts⟩ : ∃ t ts,
            (linesOf cs).take (rowOf cs k + 1) = t :: ts := by
          cases hx : (linesOf cs).take (rowOf cs k + 1) with
          | nil => exact absurd hx (take_succ_ne_nil (linesOf_ne_nil cs) _)
          | cons t ts => exact ⟨t, ts, rfl⟩
        rw [hts]
        rw [show joinLines ([] :: t :: ts) = '\n' :: joinLines (t :: ts)
          from rfl]
        rw [← hts, ihk, List.take_succ_cons]
      · obtain ⟨l, ls, hl⟩ : ∃ l ls, linesOf cs = l :: ls := by
          cases hls : linesOf cs with
          | nil => exact absurd hls (linesOf_ne_nil cs)
          | cons l ls => exact ⟨l, ls, rfl⟩
        rw [rowOf_cons_other hc, linesOf_cons_other hc hl,
          List.take_succ_cons, joinLines_cons_cons, ← List.take_succ_cons,
          ← hl, ihk, List.take_succ_cons]

/-- Concrete file content for the chunk-extraction instances. -/
def c4Content : List Char := ['a', 'b', '\n', 'c', 'd']

/-- A node starting mid-line (tree-sitter column 1): byte range `[1, 2)`. -/
def c4Node : SNode := SNode.mk "function_declaration" "f" 1 2 SForest.nil

/-- A node spanning the whole first line: byte range `[0, 2)`. -/
def c4WNode : SNode := SNode.mk "function_declaration" "f" 0 2 SForest.nil

/-- C4 counterexample: for a chunk whose node starts mid-line, the 1-indexed
inclusive line range `content[startLine-1 : endLine]` does not reproduce the
chunk's `code` — `extractChunk` slices the byte range `[startIndex,
endIndex)`, so the line range also contains the characters before the node
on its first line ("ab" vs "b"). -/
theorem extractChunk_roundTrip_counterexample :
    (extractChunk "f.ts" c4Content "javascript" "function" none c4Node).startLine ≤
      (extractChunk "f.ts" c4Content "javascript" "function" none c4Node).endLine ∧
    linesSlice c4Content
        (extractChunk "f.ts" c4Content "javascript" "function" none c4Node).startLine
        (extractChunk "f.ts" c4Content "javascript" "function" none c4Node).endLine ≠
      (extractChunk "f.ts" c4Content "javascript" "function" none c4Node).code.data := by
  refine ⟨by decide, by decide⟩

/-- C4 (amended): for every chunk, `startLine ≤ endLine`; and the 1-indexed
inclusive line range `content[startLine-1 : endLine]` reproduces the chunk's
`code` exactly when the node starts at column 0 and ends at a line boundary
(end of file or just before a newline).  In general `code` is the byte range
`[startIndex, endIndex)` of the file. -/
theorem extractChunk_roundTrip (filePath : String) (content : List Char)
    (language chunkType : String) (parentClass : Option String) (node : SNode)
    (h1 : node.startIndex ≤ node.endIndex)
    (h2 : node.endIndex ≤ content.length) :
    (extractChunk filePath content language chunkType parentClass node).startLine ≤
      (extractChunk filePath content language chunkType parentClass node).endLine ∧
    ((extractChunk filePath content language chunkType parentClass node).code.data =
      (content.take node.endIndex).drop node.startIndex) ∧
    (atLineStart content node.startIndex →
      (node.endIndex = content.length ∨ content[node.endIndex]? = some '\n') →
      linesSlice content
          (extractChunk filePath content language chunkType parentClass node).startLine
          (extractChunk filePath content language chunkType parentClass node).endLine =
        (extractChunk filePath content language chunkType parentClass node).code.data) := by
  refine ⟨Nat.succ_le_succ (rowOf_mono content h1), rfl, ?_⟩
  intro hs hb
  have hadd := rowOf_add content node.startIndex node.endIndex h1
  show joinLines (((linesOf content).drop (rowOf content node.startIndex + 1 - 1)).take
      ((rowOf content node.endIndex + 1) - (rowOf content node.startIndex + 1 - 1))) =
    (content.take node.endIndex).drop node.startIndex
  rw [Nat.add_sub_cancel]
  rw [show (rowOf content node.endIndex + 1) - rowOf content node.startIndex =
    (rowOf content node.endIndex - rowOf content node.startIndex) + 1 from by
      have := rowOf_mono content h1
      omega]
  rw [linesOf_drop content node.startIndex hs]
  rw [show rowOf content node.endIndex - rowOf content node.startIndex =
    rowOf (content.drop node.startIndex) (node.endIndex - node.startIndex) from by
      omega]
  rw [linesOf_take (content.drop node.startIndex)
    (node.endIndex - node.startIndex)
    (by rw [List.length_drop]; omega)
    (by
      rcases hb with hb | hb
      · left
        rw [List.length_drop]
        omega
      · right
        rw [List.getElem?_drop]
        rw [show node.startIndex + (node.endIndex - node.startIndex) =
          node.endIndex from by omega]
        exact hb)]
  rw [List.drop_take]

/-- C4 witness: the amended round trip applied to a node spanning the whole
first line of a concrete file. -/
theorem extractChunk_roundTrip_witness :
    (extractChunk "f.ts" c4Content "javascript" "function" none c4WNode).startLine ≤
      (extractChunk "f.ts" c4Content "javascript" "function" none c4WNode).endLine ∧
    linesSlice c4Content
        (extractChunk "f.ts" c4Content "javascript" "function" none c4WNode).startLine
        (extractChunk "f.ts" c4Content "javascript" "function" none c4WNode).endLine =
      (extractChunk "f.ts" c4Content "javascript" "function" none c4WNode).code.data := by
  have h := extractChunk_roundTrip "f.ts" c4Content "javascript" "function"
    none c4WNode (by decide) (by decide)
  exact ⟨h.1, h.2.2 (Or.inl (by decide)) (Or.inr (by decide))⟩

/-! ## src/lib/rag/code-chunker.ts — extractSemanticChunks -/

/-- `NODE_TYPE_MAPPINGS`: AST node type → chunk type, per language. -/
def NODE_TYPE_MAPPINGS : List (String × List (String × String)) :=
  [("javascript",
    [("function_declaration", "function"), ("function", "function"),
     ("arrow_function", "function"), ("function_expression", "function"),
     ("method_definition", "method"), ("class_declaration", "class")]),
   ("typescript",
    [("function_declaration", "function"), ("function", "function"),
     ("arrow_function", "function"), ("function_expression", "function"),
     ("method_definition", "method"), ("method_signature", "method"),
     ("class_declaration", "class"), ("interface_declaration", "interface"),
     ("type_alias_declaration", "interface"), ("enum_declaration", "constant")]),
   ("tsx",
    [("function_declaration", "function"), ("function", "function"),
     ("arrow_function", "function"), ("function_expression", "function"),
     ("method_definition", "method"), ("class_declaration", "class"),
     ("interface_declaration", "interface"),
     ("type_alias_declaration", "interface"), ("jsx_element", "component")]),
   ("python",
    [("function_definition", "function"), ("class_definition", "class")]),
   ("go",
    [("function_declaration", "function"), ("method_declaration", "method"),
     ("type_declaration", "interface")]),
   ("rust",
    [("function_item", "function"), ("impl_item", "method"),
     ("struct_item", "class"), ("enum_item", "constant"),
     ("trait_item", "interface")])]

/-- `nodeTypes[node.type]` for a language (`none` when unmapped). -/
def nodeTypeFor (language nodeType : String) : Option String :=
  match NODE_TYPE_MAPPINGS.find? (fun p => p.1 = language) with
  | none => none
  | some m => (m.2.find? (fun p => p.1 = nodeType)).map (fun p => p.2)

mutual
/-- The `visit` closure of `extractSemanticChunks`: extract a chunk when the
node type is mapped (pre-order), track `currentClass` (set on entering a
mapped class node, reset to `undefined` after its children). -/
def visitNode (filePath : String) (content : List Char) (language : String)
    (cls : Option String) : SNode → List CodeChunk × Option String
  | n@(SNode.mk t _ _ _ f) =>
    match nodeTypeFor language t with
    | some ct =>
      (extractChunk filePath content language ct
          (if ct = "method" then (if ct = "class" then some n.name else cls)
           else none) n ::
        (visitForest filePath content language
          (if ct = "class" then some n.name else cls) f).1,
       if ct = "class" then none
       else (visitForest filePath content language
          (if ct = "class" then some n.name else cls) f).2)
    | none => visitForest filePath content language cls f

def visitForest (filePath : String) (content : List Char) (language : String)
    (cls : Option String) : SForest → List CodeChunk × Option String
  | .nil => ([], cls)
  | .cons n f =>
    ((visitNode filePath content language cls n).1 ++
      (visitForest filePath content language
        (visitNode filePath content language cls n).2 f).1,
     (visitForest filePath content language
        (visitNode filePath content language cls n).2 f).2)
end

/-- `extractSemanticChunks(tree, filePath, content, language)`. -/
def extractSemanticChunks (filePath : String) (content : List Char)
    (language : String) (root : SNode) : List CodeChunk :=
  (visitNode filePath content language none root).1

mutual
/-- The nodes of a tree whose type is mapped for the language, in the
pre-order in which `visit` reaches them. -/
def mappedNodes (language : String) : SNode → List SNode
  | n@(SNode.mk t _ _ _ f) =>
    (match nodeTypeFor language t with
     | some _ => [n]
     | none => []) ++ mappedForest language f

def mappedForest (language : String) : SForest → List SNode
  | .nil => []
  | .cons n f => mappedNodes language n ++ mappedForest language f
end

/-- The split lines of a file, as strings. -/
def fileLines (content : List Char) : List String :=
  (linesOf content).map (fun l => String.mk l)

mutual
theorem visitNode_jsDocs (filePath : String) (content : List Char)
    (language : String) (cls : Option String) (n : SNode) :
    ((visitNode filePath content language cls n).1).map
        (fun c => c.context.jsDoc) =
      (mappedNodes language n).map (fun p =>
        extractJSDoc ((linesOf content).map (fun l => String.mk l))
          (rowOf content p.startIndex)) := by
  cases n with
  | mk t nm si ei f =>
    cases h : nodeTypeFor language t with
    | none =>
      simp only [visitNode, mappedNodes, h, List.nil_append]
      exact visitForest_jsDocs filePath content language cls f
    | some ct =>
      simp only [visitNode, mappedNodes, h, List.map_cons, List.map_append,
        List.singleton_append]
      rw [visitForest_jsDocs filePath content language
        (if ct = "class" then some (SNode.mk t nm si ei f).name else cls) f]
      rfl

theorem visitForest_jsDocs (filePath : String) (content : List Char)
    (language : String) (cls : Option String) (f : SForest) :
    ((visitForest filePath content language cls f).1).map
        (fun c => c.context.jsDoc) =
      (mappedForest language f).map (fun p =>
        extractJSDoc ((linesOf content).map (fun l => String.mk l))
          (rowOf content p.startIndex)) := by
  cases f with
  | nil => rfl
  | cons n f =>
    simp only [visitForest, mappedForest, List.map_append]
    rw [visitNode_jsDocs, visitForest_jsDocs]
end

/-- A trimmed line that `extractJSDoc` collects and then keeps scanning
past: a JSDoc-style line, or a `//`/`#` comment that is not a docstring
marker. -/
def jsDocKeep (line : String) : Bool :=
  jsStartsWith line "/**" || jsStartsWith line "*" || jsEndsWith line "*/" ||
    (!(jsStartsWith line "\x22\x22\x22" || jsStartsWith line "\x27\x27\x27") &&
      (jsStartsWith line "//" || jsStartsWith line "#"))

/-- A trimmed line at which `extractJSDoc` stops without collecting:
nonempty and matching no comment pattern. -/
def jsDocStop (line : String) : Bool :=
  !(jsStartsWith line "/**" || jsStartsWith line "*" || jsEndsWith line "*/" ||
    jsStartsWith line "\x22\x22\x22" || jsStartsWith line "\x27\x27\x27" ||
    jsStartsWith line "//" || jsStartsWith line "#") &&
    decide (0 < line.length)

theorem jsDocCollect_keep (lines : List String) (i : Nat) (rest : List Nat)
    (acc : List String) (h : jsDocKeep (jsTrim (lines.getD i "")) = true) :
    jsDocCollect lines (i :: rest) acc =
      jsDocCollect lines rest (jsTrim (lines.getD i "") :: acc) := by
  simp only [jsDocKeep, Bool.or_eq_true, Bool.and_eq_true,
    Bool.not_eq_true'] at h
  by_cases h1 : (jsStartsWith (jsTrim (lines.getD i "")) "/**" ||
      jsStartsWith (jsTrim (lines.getD i "")) "*" ||
      jsEndsWith (jsTrim (lines.getD i "")) "*/") = true
  · conv_lhs => unfold jsDocCollect
    rw [if_pos h1]
  · simp only [Bool.or_eq_true] at h1
    rcases h with ((h | h) | h) | ⟨hq, hc⟩
    · exact absurd (Or.inl (Or.inl h)) h1
    · exact absurd (Or.inl (Or.inr h)) h1
    · exact absurd (Or.inr h) h1
    · conv_lhs => unfold jsDocCollect
      rw [if_neg (by simpa [Bool.or_eq_true] using h1),
        if_neg (by rw [hq]; simp),
        if_pos (by simpa [Bool.or_eq_true] using hc)]

theorem jsDocCollect_stop (lines : List String) (i : Nat) (rest : List Nat)
    (acc : List String) (h : jsDocStop (jsTrim (lines.getD i "")) = true) :
    jsDocCollect lines (i :: rest) acc = acc := by
  unfold jsDocStop at h
  rw [Bool.and_eq_true] at h
  obtain ⟨hnot, hlen⟩ := h
  rw [Bool.not_eq_true'] at hnot
  have p1 := Bool.or_eq_false_iff.mp hnot
  have p2 := Bool.or_eq_false_iff.mp p1.1
  have p3 := Bool.or_eq_false_iff.mp p2.1
  have p4 := Bool.or_eq_false_iff.mp p3.1
  have p5 := Bool.or_eq_false_iff.mp p4.1
  have p6 := Bool.or_eq_false_iff.mp p5.1
  rw [decide_eq_true_eq] at hlen
  conv_lhs => unfold jsDocCollect
  have c1 : (jsStartsWith (jsTrim (lines.getD i "")) "/**" ||
      jsStartsWith (jsTrim (lines.getD i "")) "*" ||
      jsEndsWith (jsTrim (lines.getD i "")) "*/") = false :=
    Bool.or_eq_false_iff.mpr ⟨Bool.or_eq_false_iff.mpr ⟨p6.1, p6.2⟩, p5.2⟩
  have c2 : (jsStartsWith (jsTrim (lines.getD i "")) "\x22\x22\x22" ||
      jsStartsWith (jsTrim (lines.getD i "")) "\x27\x27\x27") = false :=
    Bool.or_eq_false_iff.mpr ⟨p4.2, p3.2⟩
  have c3 : (jsStartsWith (jsTrim (lines.getD i "")) "//" ||
      jsStartsWith (jsTrim (lines.getD i "")) "#") = false :=
    Bool.or_eq_false_iff.mpr ⟨p2.2, p1.2⟩
  rw [if_neg (by rw [c1]; simp),
    if_neg (by rw [c2]; simp),
    if_neg (by rw [c3]; simp),
    if_pos hlen]

theorem jsDocIndices_three : jsDocIndices 3 = [2, 1, 0] := by decide

theorem jsDocIndices_ge4 (r : Nat) (h : 4 ≤ r) :
    ∃ rest, jsDocIndices r =
      (r - 1) :: (r - 2) :: (r - 3) :: (r - 4) :: rest := by
  refine ⟨([4, 5, 6, 7, 8, 9] : List Nat).filterMap
    (fun d => if d < r then some (r - 1 - d) else none), ?_⟩
  unfold jsDocIndices
  rw [show List.range 10 = [0, 1, 2, 3] ++ [4, 5, 6, 7, 8, 9] from by decide]
  rw [List.filterMap_append]
  have hfour : ([0, 1, 2, 3] : List Nat).filterMap
      (fun d => if d < r then some (r - 1 - d) else none) =
      [r - 1, r - 2, r - 3, r - 4] := by
    simp only [List.filterMap_cons, List.filterMap_nil]
    rw [if_pos (by omega : (0 : Nat) < r), if_pos (by omega : (1 : Nat) < r),
      if_pos (by omega : (2 : Nat) < r), if_pos (by omega : (3 : Nat) < r)]
    have e1 : r - 1 - 0 = r - 1 := by omega
    have e2 : r - 1 - 1 = r - 2 := by omega
    have e3 : r - 1 - 2 = r - 3 := by omega
    have e4 : r - 1 - 3 = r - 4 := by omega
    rw [e1, e2, e3, e4]
  rw [hfour]
  rfl

/-- `extractJSDoc` on a three-line comment block directly above row `r`
(with the scan stopped by the top of the file or a non-comment line):
the three lines, trimmed, joined with newlines, top-down. -/
theorem extractJSDoc_three (lines : List String) (r : Nat) (h3 : 3 ≤ r)
    (hk1 : jsDocKeep (jsTrim (lines.getD (r - 3) "")) = true)
    (hk2 : jsDocKeep (jsTrim (lines.getD (r - 2) "")) = true)
    (hk3 : jsDocKeep (jsTrim (lines.getD (r - 1) "")) = true)
    (hstop : r = 3 ∨ jsDocStop (jsTrim (lines.getD (r - 4) "")) = true) :
    extractJSDoc lines r =
      some (jsJoin "\n" [jsTrim (lines.getD (r - 3) ""),
        jsTrim (lines.getD (r - 2) ""), jsTrim (lines.getD (r - 1) "")]) := by
  by_cases hr : r = 3
  · subst hr
    unfold extractJSDoc
    rw [jsDocIndices_three]
    rw [show (2 : Nat) = 3 - 1 from rfl, show (1 : Nat) = 3 - 2 from rfl,
      show (0 : Nat) = 3 - 3 from rfl]
    rw [jsDocCollect_keep _ _ _ _ hk3, jsDocCollect_keep _ _ _ _ hk2,
      jsDocCollect_keep _ _ _ _ hk1]
    rfl
  · have h4 : 4 ≤ r := by omega
    obtain ⟨rest, hidx⟩ := jsDocIndices_ge4 r h4
    have hstop' : jsDocStop (jsTrim (lines.getD (r - 4) "")) = true := by
      rcases hstop with hstop | hstop
      · exact absurd hstop hr
      · exact hstop
    unfold extractJSDoc
    rw [hidx]
    rw [jsDocCollect_keep _ _ _ _ hk3, jsDocCollect_keep _ _ _ _ hk2,
      jsDocCollect_keep _ _ _ _ hk1, jsDocCollect_stop _ _ _ _ hstop']

/-- A JS file with a 3-line JSDoc above a single function. -/
def c9Content : List Char := ("/**\n * Adds\n */\nfunction f()").data

/-- Its parse tree: an unmapped program node containing one mapped
`function_declaration` starting at byte 16 (row 3, column 0). -/
def c9Root : SNode :=
  SNode.mk "program" "p" 0 28
    (SForest.cons (SNode.mk "function_declaration" "f" 16 28 SForest.nil)
      SForest.nil)

/-- C9 counterexample: the chunk's `jsDoc` is the 3 doc-comment lines each
`trim()`ed — `"/**\n* Adds\n*/"` — not the lines verbatim
(`"/**\n * Adds\n */"`): `extractJSDoc` trims every scanned line. -/
theorem extractSemanticChunks_jsDoc_not_verbatim :
    (extractSemanticChunks "f.js" c9Content "javascript" c9Root).length = 1 ∧
    (extractSemanticChunks "f.js" c9Content "javascript" c9Root).map
        (fun c => c.context.jsDoc) = [some "/**\n* Adds\n*/"] ∧
    (extractSemanticChunks "f.js" c9Content "javascript" c9Root).map
        (fun c => c.context.jsDoc) ≠ [some "/**\n * Adds\n */"] := by
  refine ⟨by decide, by decide, by decide⟩

/-- C9 (amended): for every supported language, chunking a file whose parse
tree maps exactly one node — a top-level declaration on row `r ≥ 3` with a
3-line doc comment directly above it (and above that the top of file or a
non-comment line) — yields exactly one chunk, whose `jsDoc` is the 3 doc
lines each trimmed of surrounding whitespace, joined top-down with
newlines (not the raw lines verbatim). -/
theorem extractSemanticChunks_singleDoc (filePath : String)
    (content : List Char) (language : String) (root n0 : SNode)
    (hmap : mappedNodes language root = [n0])
    (h3 : 3 ≤ rowOf content n0.startIndex)
    (hk1 : jsDocKeep (jsTrim ((fileLines content).getD
      (rowOf content n0.startIndex - 3) "")) = true)
    (hk2 : jsDocKeep (jsTrim ((fileLines content).getD
      (rowOf content n0.startIndex - 2) "")) = true)
    (hk3 : jsDocKeep (jsTrim ((fileLines content).getD
      (rowOf content n0.startIndex - 1) "")) = true)
    (hstop : rowOf content n0.startIndex = 3 ∨
      jsDocStop (jsTrim ((fileLines content).getD
        (rowOf content n0.startIndex - 4) "")) = true) :
    (extractSemanticChunks filePath content language root).length = 1 ∧
    (extractSemanticChunks filePath content language root).map
        (fun c => c.context.jsDoc) =
      [some (jsJoin "\n"
        [jsTrim ((fileLines content).getD (rowOf content n0.startIndex - 3) ""),
         jsTrim ((fileLines content).getD (rowOf content n0.startIndex - 2) ""),
         jsTrim ((fileLines content).getD (rowOf content n0.startIndex - 1) "")])] := by
  have hjs := visitNode_jsDocs filePath content language none root
  have hjs' : (extractSemanticChunks filePath content language root).map
      (fun c => c.context.jsDoc) =
      [extractJSDoc (fileLines content) (rowOf content n0.startIndex)] := by
    show ((visitNode filePath content language none root).1).map
      (fun c => c.context.jsDoc) = _
    rw [hjs, hmap]
    rfl
  constructor
  · have hlen := congrArg List.length hjs'
    rw [List.length_map] at hlen
    simpa using hlen
  · rw [hjs', extractJSDoc_three (fileLines content)
      (rowOf content n0.startIndex) h3 hk1 hk2 hk3 hstop]

/-- A JS file with three `//` doc lines (already trim-invariant) above a
single function starting at byte 12 (row 3, column 0). -/
def c9WContent : List Char := ("//a\n//b\n//c\nfunction f()").data

def c9WNode : SNode := SNode.mk "function_declaration" "f" 12 24 SForest.nil

def c9WRoot : SNode := SNode.mk "program" "p" 0 24 (SForest.cons c9WNode SForest.nil)

/-- C9 witness: the amended theorem applied to a concrete file. -/
theorem extractSemanticChunks_singleDoc_witness :
    (extractSemanticChunks "f.js" c9WContent "javascript" c9WRoot).length = 1 ∧
    (extractSemanticChunks "f.js" c9WContent "javascript" c9WRoot).map
        (fun c => c.context.jsDoc) =
      [some (jsJoin "\n"
        [jsTrim ((fileLines c9WContent).getD (rowOf c9WContent c9WNode.startIndex - 3) ""),
         jsTrim ((fileLines c9WContent).getD (rowOf c9WContent c9WNode.startIndex - 2) ""),
         jsTrim ((fileLines c9WContent).getD (rowOf c9WContent c9WNode.startIndex - 1) "")])] :=
  extractSemanticChunks_singleDoc "f.js" c9WContent "javascript" c9WRoot
    c9WNode (by decide) (by decide) (by decide) (by decide) (by decide)
    (Or.inl (by decide))

/-! ## src/lib/rag/code-graph.ts -/

/-- JS `Map.set`: replace in place if the key exists, else append. -/
def mapSet {β : Type} : List (String × β) → String → β → List (String × β)
  | [], k, v => [(k, v)]
  | (k0, v0) :: rest, k, v =>
    if k0 = k then (k, v) :: rest else (k0, v0) :: mapSet rest k v

/-- JS `Map.get`. -/
def lookupAssoc {β : Type} (m : List (String × β)) (k : String) : Option β :=
  (m.find? (fun p => p.1 = k)).map (fun p => p.2)

/-- `CodeGraph`'s three maps. -/
structure CodeGraph where
  callEdges : List (String × List String)
  definitions : List (String × List String)
  chunksById : List (String × CodeChunk)
  deriving Repr, DecidableEq

/-- One iteration of `buildGraph`'s loop over the chunks. -/
def addChunkToGraph (g : CodeGraph) (chunk : CodeChunk) : CodeGraph :=
  { callEdges :=
      if chunk.context.calls.isEmpty then g.callEdges
      else mapSet g.callEdges chunk.id chunk.context.calls
    definitions := mapSet g.definitions chunk.name
      ((lookupAssoc g.definitions chunk.name).getD [] ++ [chunk.id])
    chunksById := mapSet g.chunksById chunk.id chunk }

/-- `buildGraph(chunks)` (the constructor's work). -/
def buildGraph (chunks : List CodeChunk) : CodeGraph :=
  chunks.foldl addChunkToGraph { callEdges := [], definitions := [], chunksById := [] }

/-- The `for (const targetId of definingChunks)` inner loop of
`findRelated`: push each not-yet-visited target, marking it visited. -/
def enqueueTargets (visited : List String) (queue : List (String × Nat))
    (d : Nat) : List String → List String × List (String × Nat)
  | [] => (visited, queue)
  | t :: ts =>
    if t ∈ visited then enqueueTargets visited queue d ts
    else enqueueTargets (t :: visited) (queue ++ [(t, d)]) d ts

/-- The `while (queue.length > 0)` loop of `findRelated`, with explicit
fuel (`none` = fuel exhausted; `findRelated` passes enough fuel, proved in
`bfsLoop_isSome`). -/
def bfsLoop (g : CodeGraph) (maxDepth : Nat) :
    Nat → List String → List (String × Nat) → List (CodeChunk × Nat) →
    Option (List (CodeChunk × Nat))
  | _, _, [], related => some related
  | 0, _, _ :: _, _ => none
  | fuel + 1, visited, (id, d) :: rest, related =>
    match lookupAssoc g.chunksById id with
    | none => bfsLoop g maxDepth fuel visited rest related
    | some chunk =>
      if maxDepth ≤ d then
        bfsLoop g maxDepth fuel visited rest
          (if 0 < d then related ++ [(chunk, d)] else related)
      else
        bfsLoop g maxDepth fuel
          (enqueueTargets visited rest (d + 1)
            (((lookupAssoc g.callEdges id).getD []).flatMap
              (fun fn => (lookupAssoc g.definitions fn).getD []))).1
          (enqueueTargets visited rest (d + 1)
            (((lookupAssoc g.callEdges id).getD []).flatMap
              (fun fn => (lookupAssoc g.definitions fn).getD []))).2
          (if 0 < d then related ++ [(chunk, d)] else related)

/-- Ascending-depth comparator of the final `related.sort`. -/
def depthLe (a b : CodeChunk × Nat) : Bool := decide (a.2 ≤ b.2)

/-- `findRelated` before the final projection to chunks: BFS from the
chunk, then stable sort by ascending depth. -/
def findRelatedPairs (g : CodeGraph) (chunkId : String) (maxDepth : Nat) :
    List (CodeChunk × Nat) :=
  match bfsLoop g maxDepth
      ((g.definitions.flatMap (fun p => p.2)).length + 2)
      [chunkId] [(chunkId, 0)] [] with
  | some related => insertSort depthLe related
  | none => []

/-- `findRelated(chunkId, maxDepth)`. -/
def findRelated (g : CodeGraph) (chunkId : String) (maxDepth : Nat) :
    List CodeChunk :=
  (findRelatedPairs g chunkId maxDepth).map (fun p => p.1)

/-- Ids not yet visited, counted with multiplicity over `U`. -/
def unvisitedCount (U visited : List String) : Nat :=
  (U.filter (fun u => decide (u ∉ visited))).length

/-! ### Termination of the BFS: the chosen fuel suffices -/

theorem unvisitedCount_cons_le (t : String) :
    ∀ (U v : List String), unvisitedCount U (t :: v) ≤ unvisitedCount U v := by
  intro U v
  induction U with
  | nil => exact le_refl _
  | cons u us ih =>
    unfold unvisitedCount at *
    rw [List.filter_cons, List.filter_cons]
    by_cases hu : u ∈ v
    · rw [if_neg (by simp [hu]), if_neg (by simp [hu])]
      exact ih
    · by_cases hu2 : u ∈ t :: v
      · rw [if_neg (by simp [hu2])]
        exact le_trans ih (by rw [if_pos (by simpa using hu)]; simp)
      · rw [if_pos (by simpa using hu2), if_pos (by simpa using hu)]
        simpa using ih

theorem unvisitedCount_cons_lt (t : String) :
    ∀ (U v : List String), t ∈ U → t ∉ v →
      unvisitedCount U (t :: v) + 1 ≤ unvisitedCount U v := by
  intro U
  induction U with
  | nil => intro v ht _; exact absurd ht (List.not_mem_nil t)
  | cons u us ih =>
    intro v ht hv
    unfold unvisitedCount
    rw [List.filter_cons, List.filter_cons]
    by_cases hu : u = t
    · subst hu
      rw [if_neg (by simp), if_pos (by simpa using hv)]
      have : unvisitedCount us (u :: v) ≤ unvisitedCount us v :=
        unvisitedCount_cons_le u us v
      unfold unvisitedCount at this
      simpa using Nat.add_le_add_right this 1
    · have hmem : u ∈ t :: v ↔ u ∈ v := by
        constructor
        · intro h
          rcases List.mem_cons.mp h with h | h
          · exact absurd h hu
          · exact h
        · exact List.mem_cons_of_mem t
      have htus : t ∈ us := by
        rcases List.mem_cons.mp ht with h | h
        · exact absurd h.symm hu
        · exact h
      have := ih v htus hv
      unfold unvisitedCount at this
      by_cases huv : u ∈ v
      · rw [if_neg (by simp [hmem, huv]), if_neg (by simp [huv])]
        exact this
      · rw [if_pos (by simp [hmem, huv]), if_pos (by simpa using huv)]
        simpa using this

theorem enqueueTargets_measure (U : List String) :
    ∀ (ts : List String) (v : List String) (q : List (String × Nat)) (d : Nat),
      (∀ t ∈ ts, t ∈ U) →
      (enqueueTargets v q d ts).2.length +
          unvisitedCount U (enqueueTargets v q d ts).1 ≤
        q.length + unvisitedCount U v := by
  intro ts
  induction ts with
  | nil => intro v q d _; exact le_refl _
  | cons t ts ih =>
    intro v q d hsub
    by_cases ht : t ∈ v
    · show (enqueueTargets v q d (t :: ts)).2.length + _ ≤ _
      unfold enqueueTargets
      rw [if_pos ht]
      exact ih v q d (fun t ht => hsub t (List.mem_cons_of_mem _ ht))
    · show (enqueueTargets v q d (t :: ts)).2.length + _ ≤ _
      unfold enqueueTargets
      rw [if_neg ht]
      have h1 := ih (t :: v) (q ++ [(t, d)]) d
        (fun t ht => hsub t (List.mem_cons_of_mem _ ht))
      have h2 := unvisitedCount_cons_lt t U v
        (hsub t (List.mem_cons_self t ts)) ht
      rw [List.length_append, List.length_singleton] at h1
      omega

theorem lookup_definitions_subset (g : CodeGraph) (fn t : String)
    (ht : t ∈ (lookupAssoc g.definitions fn).getD []) :
    t ∈ g.definitions.flatMap (fun p => p.2) := by
  cases h : lookupAssoc g.definitions fn with
  | none => rw [h] at ht; exact absurd ht (List.not_mem_nil t)
  | some l =>
    rw [h] at ht
    unfold lookupAssoc at h
    obtain ⟨p, hp, hpl⟩ := Option.map_eq_some'.mp h
    have hpm : p ∈ g.definitions := List.mem_of_find?_eq_some hp
    exact List.mem_flatMap.mpr ⟨p, hpm, by rw [hpl]; exact ht⟩

theorem bfsLoop_isSome (g : CodeGraph) (maxDepth : Nat) :
    ∀ (fuel : Nat) (queue : List (String × Nat)) (visited : List String)
      (related : List (CodeChunk × Nat)),
      queue.length +
          unvisitedCount (g.definitions.flatMap (fun p => p.2)) visited < fuel →
      (bfsLoop g maxDepth fuel visited queue related).isSome := by
  intro fuel
  induction fuel with
  | zero => intro queue visited related h; exact absurd h (by omega)
  | succ fuel ih =>
    intro queue visited related h
    match queue with
    | [] => rfl
    | (id, d) :: rest =>
      show (bfsLoop g maxDepth (fuel + 1) visited ((id, d) :: rest) related).isSome
      rw [show bfsLoop g maxDepth (fuel + 1) visited ((id, d) :: rest) related =
        match lookupAssoc g.chunksById id with
        | none => bfsLoop g maxDepth fuel visited rest related
        | some chunk =>
          if maxDepth ≤ d then
            bfsLoop g maxDepth fuel visited rest
              (if 0 < d then related ++ [(chunk, d)] else related)
          else
            bfsLoop g maxDepth fuel
              (enqueueTargets visited rest (d + 1)
                (((lookupAssoc g.callEdges id).getD []).flatMap
                  (fun fn => (lookupAssoc g.definitions fn).getD []))).1
              (enqueueTargets visited rest (d + 1)
                (((lookupAssoc g.callEdges id).getD []).flatMap
                  (fun fn => (lookupAssoc g.definitions fn).getD []))).2
              (if 0 < d then related ++ [(chunk, d)] else related) from rfl]
      rw [List.length_cons] at h
      split
      next => exact ih rest visited related (by omega)
      next chunk hc =>
        split
        next hd => exact ih rest visited _ (by omega)
        next hd =>
          have hm := enqueueTargets_measure
            (g.definitions.flatMap (fun p => p.2))
            (((lookupAssoc g.callEdges id).getD []).flatMap
              (fun fn => (lookupAssoc g.definitions fn).getD []))
            visited rest (d + 1)
            (fun t ht => by
              obtain ⟨fn, _, htf⟩ := List.mem_flatMap.mp ht
              exact lookup_definitions_subset g fn t htf)
          exact ih _ _ _ (by omega)

/-! ### BFS visit discipline -/

theorem enqueueTargets_spec (d : Nat) :
    ∀ (ts : List String) (v : List String) (q : List (String × Nat)),
      ∃ new : List (String × Nat),
        (enqueueTargets v q d ts).2 = q ++ new ∧
        (new.map (fun e => e.1)).Nodup ∧
        (∀ e ∈ new, e.1 ∉ v ∧ e.2 = d ∧ e.1 ∈ (enqueueTargets v q d ts).1) ∧
        (∀ y ∈ v, y ∈ (enqueueTargets v q d ts).1) ∧
        (∀ y ∈ (enqueueTargets v q d ts).1, y ∈ v ∨ ∃ e ∈ new, e.1 = y) := by
  intro ts
  induction ts with
  | nil =>
    intro v q
    exact ⟨[], by simp [enqueueTargets], by simp, by simp,
      fun y hy => hy, fun y hy => Or.inl hy⟩
  | cons t ts ih =>
    intro v q
    by_cases ht : t ∈ v
    · have henq : enqueueTargets v q d (t :: ts) = enqueueTargets v q d ts := by
        rw [show enqueueTargets v q d (t :: ts) =
          if t ∈ v then enqueueTargets v q d ts
          else enqueueTargets (t :: v) (q ++ [(t, d)]) d ts from rfl, if_pos ht]
      obtain ⟨new, h1, h2, h3, h4, h5⟩ := ih v q
      exact ⟨new, by rw [henq]; exact h1, h2,
        fun e he => by rw [henq]; exact h3 e he,
        fun y hy => by rw [henq]; exact h4 y hy,
        fun y hy => h5 y (by rw [← henq]; exact hy)⟩
    · have henq : enqueueTargets v q d (t :: ts) =
          enqueueTargets (t :: v) (q ++ [(t, d)]) d ts := by
        rw [show enqueueTargets v q d (t :: ts) =
          if t ∈ v then enqueueTargets v q d ts
          else enqueueTargets (t :: v) (q ++ [(t, d)]) d ts from rfl, if_neg ht]
      obtain ⟨new, h1, h2, h3, h4, h5⟩ := ih (t :: v) (q ++ [(t, d)])
      refine ⟨(t, d) :: new, ?_, ?_, ?_, ?_, ?_⟩
      · rw [henq, h1, List.append_assoc]
        rfl
      · rw [List.map_cons]
        refine List.nodup_cons.mpr ⟨?_, h2⟩
        intro hmem
        obtain ⟨e, he, hee⟩ := List.mem_map.mp hmem
        exact (h3 e he).1 (by rw [hee]; exact List.mem_cons_self t v)
      · intro e he
        rcases List.mem_cons.mp he with he | he
        · subst he
          exact ⟨ht, rfl, by
            rw [henq]
            exact h4 t (List.mem_cons_self t v)⟩
        · obtain ⟨hnv, hd, hvis⟩ := h3 e he
          exact ⟨fun hv => hnv (List.mem_cons_of_mem t hv), hd,
            by rw [henq]; exact hvis⟩
      · intro y hy
        rw [henq]
        exact h4 y (List.mem_cons_of_mem t hy)
      · intro y hy
        rw [henq] at hy
        rcases h5 y hy with hv | ⟨e, he, hey⟩
        · rcases List.mem_cons.mp hv with hv | hv
          · exact Or.inr ⟨(t, d), List.mem_cons_self _ _, hv.symm⟩
          · exact Or.inl hv
        · exact Or.inr ⟨e, List.mem_cons_of_mem _ he, hey⟩

theorem lookupAssoc_chunk_id (g : CodeGraph)
    (hg : ∀ p ∈ g.chunksById, p.2.id = p.1) (id : String) (chunk : CodeChunk)
    (hc : lookupAssoc g.chunksById id = some chunk) : chunk.id = id := by
  unfold lookupAssoc at hc
  obtain ⟨p, hfind, hp2⟩ := Option.map_eq_some'.mp hc
  have hpid : p.1 = id := by
    have := List.find?_some hfind
    simpa using this
  have hpm := List.mem_of_find?_eq_some hfind
  rw [← hp2, hg p hpm, hpid]

theorem bfsLoop_invariant (g : CodeGraph)
    (hg : ∀ p ∈ g.chunksById, p.2.id = p.1) (x : String) (maxDepth : Nat) :
    ∀ (fuel : Nat) (queue : List (String × Nat)) (visited : List String)
      (related rel : List (CodeChunk × Nat)),
      x ∈ visited →
      (∀ e ∈ queue, e.1 = x → e.2 = 0) →
      ((queue.map (fun e => e.1)).Nodup) →
      (∀ e ∈ queue, e.1 ∈ visited) →
      ((related.map (fun p => p.1.id)).Nodup) →
      (∀ p ∈ related, p.1.id ≠ x) →
      (∀ p ∈ related, ∀ e ∈ queue, p.1.id ≠ e.1) →
      (∀ p ∈ related, p.1.id ∈ visited) →
      bfsLoop g maxDepth fuel visited queue related = some rel →
      ((rel.map (fun p => p.1.id)).Nodup ∧ ∀ p ∈ rel, p.1.id ≠ x) := by
  intro fuel
  induction fuel with
  | zero =>
    intro queue visited related rel _ _ _ _ hrn hrx _ _ hrun
    match queue with
    | [] =>
      rw [show bfsLoop g maxDepth 0 visited [] related = some related from rfl]
        at hrun
      cases hrun
      exact ⟨hrn, hrx⟩
    | e :: rest =>
      rw [show bfsLoop g maxDepth 0 visited (e :: rest) related = none from rfl]
        at hrun
      cases hrun
  | succ fuel ih =>
    intro queue visited related rel hxv hq0 hqn hqv hrn hrx hrq hrv hrun
    match queue with
    | [] =>
      rw [show bfsLoop g maxDepth (fuel + 1) visited [] related = some related
        from rfl] at hrun
      cases hrun
      exact ⟨hrn, hrx⟩
    | (id, d) :: rest =>
      rw [show bfsLoop g maxDepth (fuel + 1) visited ((id, d) :: rest) related =
        match lookupAssoc g.chunksById id with
        | none => bfsLoop g maxDepth fuel visited rest related
        | some chunk =>
          if maxDepth ≤ d then
            bfsLoop g maxDepth fuel visited rest
              (if 0 < d then related ++ [(chunk, d)] else related)
          else
            bfsLoop g maxDepth fuel
              (enqueueTargets visited rest (d + 1)
                (((lookupAssoc g.callEdges id).getD []).flatMap
                  (fun fn => (lookupAssoc g.definitions fn).getD []))).1
              (enqueueTargets visited rest (d + 1)
                (((lookupAssoc g.callEdges id).getD []).flatMap
                  (fun fn => (lookupAssoc g.definitions fn).getD []))).2
              (if 0 < d then related ++ [(chunk, d)] else related) from rfl]
        at hrun
      have hqn' : ((rest.map (fun e => e.1)).Nodup) := by
        rw [List.map_cons] at hqn
        exact (List.nodup_cons.mp hqn).2
      have hidrest : id ∉ rest.map (fun e => e.1) := by
        rw [List.map_cons] at hqn
        exact (List.nodup_cons.mp hqn).1
      have hq0' : ∀ e ∈ rest, e.1 = x → e.2 = 0 :=
        fun e he => hq0 e (List.mem_cons_of_mem _ he)
      have hqv' : ∀ e ∈ rest, e.1 ∈ visited :=
        fun e he => hqv e (List.mem_cons_of_mem _ he)
      have hrq' : ∀ p ∈ related, ∀ e ∈ rest, p.1.id ≠ e.1 :=
        fun p hp e he => hrq p hp e (List.mem_cons_of_mem _ he)
      split at hrun
      · -- chunk not found: skip
        exact ih rest visited related rel hxv hq0' hqn' hqv' hrn hrx hrq' hrv
          hrun
      · -- chunk found
        next chunk hc =>
        have hid : chunk.id = id := lookupAssoc_chunk_id g hg id chunk hc
        have hidv : id ∈ visited := hqv (id, d) (List.mem_cons_self _ _)
        -- invariants for the possibly extended related list
        have hrn2 : (((if 0 < d then related ++ [(chunk, d)] else related).map
            (fun p => p.1.id)).Nodup) := by
          by_cases hd0 : 0 < d
          · rw [if_pos hd0, List.map_append]
            refine List.Nodup.append hrn (by simp) ?_
            intro a ha hb
            simp only [List.map_cons, List.map_nil, List.mem_singleton] at hb
            obtain ⟨p, hp, hpa⟩ := List.mem_map.mp ha
            rw [hb, hid] at hpa
            exact hrq p hp (id, d) (List.mem_cons_self _ _) hpa
          · rw [if_neg hd0]
            exact hrn
        have hrx2 : ∀ p ∈ (if 0 < d then related ++ [(chunk, d)] else related),
            p.1.id ≠ x := by
          by_cases hd0 : 0 < d
          · rw [if_pos hd0]
            intro p hp
            rcases List.mem_append.mp hp with hp | hp
            · exact hrx p hp
            · rw [List.mem_singleton.mp hp, hid]
              intro hix
              have := hq0 (id, d) (List.mem_cons_self _ _) hix
              omega
          · rw [if_neg hd0]
            exact hrx
        have hrq2 : ∀ p ∈ (if 0 < d then related ++ [(chunk, d)] else related),
            ∀ e ∈ rest, p.1.id ≠ e.1 := by
          by_cases hd0 : 0 < d
          · rw [if_pos hd0]
            intro p hp e he
            rcases List.mem_append.mp hp with hp | hp
            · exact hrq' p hp e he
            · rw [List.mem_singleton.mp hp, hid]
              intro hie
              exact hidrest (hie ▸ List.mem_map_of_mem (fun e => e.1) he)
          · rw [if_neg hd0]
            exact hrq'
        have hrv2 : ∀ p ∈ (if 0 < d then related ++ [(chunk, d)] else related),
            p.1.id ∈ visited := by
          by_cases hd0 : 0 < d
          · rw [if_pos hd0]
            intro p hp
            rcases List.mem_append.mp hp with hp | hp
            · exact hrv p hp
            · rw [List.mem_singleton.mp hp, hid]
              exact hidv
          · rw [if_neg hd0]
            exact hrv
        split at hrun
        · -- at max depth: continue with the rest of the queue
          exact ih rest visited _ rel hxv hq0' hqn' hqv' hrn2 hrx2 hrq2 hrv2
            hrun
        · -- below max depth: enqueue call targets
          obtain ⟨new, he1, he2, he3, he4, he5⟩ := enqueueTargets_spec (d + 1)
            (((lookupAssoc g.callEdges id).getD []).flatMap
              (fun fn => (lookupAssoc g.definitions fn).getD []))
            visited rest
          refine ih _ _ _ rel (he4 x hxv) ?_ ?_ ?_ hrn2 hrx2 ?_ ?_ hrun
          · -- depth-0 only for x
            rw [he1]
            intro e he hex
            rcases List.mem_append.mp he with he | he
            · exact hq0' e he hex
            · exact absurd (hex ▸ hxv) (he3 e he).1
          · -- queue ids nodup
            rw [he1, List.map_append]
            refine List.Nodup.append hqn' he2 ?_
            intro a ha hb
            obtain ⟨e, he, hea⟩ := List.mem_map.mp hb
            obtain ⟨e2, he2m, he2a⟩ := List.mem_map.mp ha
            exact (he3 e he).1 (hea ▸ he2a ▸ hqv' e2 he2m)
          · -- queue ids visited
            rw [he1]
            intro e he
            rcases List.mem_append.mp he with he | he
            · exact he4 e.1 (hqv' e he)
            · exact (he3 e he).2.2
          · -- related ids distinct from queue ids
            rw [he1]
            intro p hp e he
            rcases List.mem_append.mp he with he | he
            · exact hrq2 p hp e he
            · exact fun hpe => (he3 e he).1 (hpe ▸ hrv2 p hp)
          · -- related ids visited
            intro p hp
            exact he4 p.1.id (hrv2 p hp)

theorem bfsLoop_nil (g : CodeGraph) (maxDepth fuel : Nat)
    (visited : List String) (related : List (CodeChunk × Nat)) :
    bfsLoop g maxDepth fuel visited [] related = some related := by
  cases fuel <;> rfl

theorem mapSet_mem {β : Type} :
    ∀ (m : List (String × β)) (k : String) (v : β) (p : String × β),
      p ∈ mapSet m k v → p ∈ m ∨ p = (k, v) := by
  intro m
  induction m with
  | nil =>
    intro k v p hp
    rcases List.mem_singleton.mp hp with h
    exact Or.inr h
  | cons q rest ih =>
    intro k v p hp
    by_cases hk : q.1 = k
    · rw [show mapSet (q :: rest) k v = (k, v) :: rest from by
        rw [show mapSet (q :: rest) k v =
          if q.1 = k then (k, v) :: rest else q :: mapSet rest k v from by
            cases q; rfl, if_pos hk]] at hp
      rcases List.mem_cons.mp hp with h | h
      · exact Or.inr h
      · exact Or.inl (List.mem_cons_of_mem q h)
    · rw [show mapSet (q :: rest) k v = q :: mapSet rest k v from by
        rw [show mapSet (q :: rest) k v =
          if q.1 = k then (k, v) :: rest else q :: mapSet rest k v from by
            cases q; rfl, if_neg hk]] at hp
      rcases List.mem_cons.mp hp with h | h
      · exact Or.inl (h ▸ List.mem_cons_self q rest)
      · rcases ih k v p h with h | h
        · exact Or.inl (List.mem_cons_of_mem q h)
        · exact Or.inr h

theorem buildGraph_chunksById_aux :
    ∀ (chunks : List CodeChunk) (g : CodeGraph),
      (∀ p ∈ g.chunksById, p.2.id = p.1) →
      ∀ p ∈ (chunks.foldl addChunkToGraph g).chunksById, p.2.id = p.1 := by
  intro chunks
  induction chunks with
  | nil => intro g hgood; exact hgood
  | cons c cs ih =>
    intro g hgood
    refine ih (addChunkToGraph g c) ?_
    intro p hp
    rcases mapSet_mem g.chunksById c.id c p hp with h | h
    · exact hgood p h
    · rw [h]

theorem buildGraph_chunksById (chunks : List CodeChunk) :
    ∀ p ∈ (buildGraph chunks).chunksById, p.2.id = p.1 :=
  buildGraph_chunksById_aux chunks _ (fun p hp => absurd hp (List.not_mem_nil p))

theorem depthLe_trans : ∀ a b c : CodeChunk × Nat,
    depthLe a b = true → depthLe b c = true → depthLe a c = true := by
  intro a b c hab hbc
  simp only [depthLe, decide_eq_true_eq] at *
  omega

theorem depthLe_total : ∀ a b : CodeChunk × Nat,
    depthLe a b = true ∨ depthLe b a = true := by
  intro a b
  simp only [depthLe, decide_eq_true_eq]
  omega

/-- C5: for every graph built from a chunk set and every start id `x`:
`findRelated x 0` is empty; `findRelated` never includes a chunk with the
start id; the BFS result is ordered by ascending hop depth; the bounded
fuel always suffices (the traversal terminates, also on cyclic call
graphs); and the result contains each chunk id at most once. -/
theorem findRelated_spec (chunks : List CodeChunk) (x : String)
    (maxDepth : Nat) :
    findRelated (buildGraph chunks) x 0 = [] ∧
    (∀ c ∈ findRelated (buildGraph chunks) x maxDepth, c.id ≠ x) ∧
    (findRelatedPairs (buildGraph chunks) x maxDepth).Pairwise
      (fun a b => a.2 ≤ b.2) ∧
    (bfsLoop (buildGraph chunks) maxDepth
      (((buildGraph chunks).definitions.flatMap (fun p => p.2)).length + 2)
      [x] [(x, 0)] []).isSome ∧
    ((findRelated (buildGraph chunks) x maxDepth).map (fun c => c.id)).Nodup := by
  have hgid := buildGraph_chunksById chunks
  have hmeasure : (([(x, 0)] : List (String × Nat))).length +
      unvisitedCount
        ((buildGraph chunks).definitions.flatMap (fun p => p.2)) [x] <
      (((buildGraph chunks).definitions.flatMap (fun p => p.2)).length + 2) := by
    have := List.length_filter_le
      (fun u => decide (u ∉ ([x] : List String)))
      ((buildGraph chunks).definitions.flatMap (fun p => p.2))
    unfold unvisitedCount
    simp only [List.length_singleton]
    omega
  have hsome := bfsLoop_isSome (buildGraph chunks) maxDepth
    (((buildGraph chunks).definitions.flatMap (fun p => p.2)).length + 2)
    [(x, 0)] [x] [] hmeasure
  obtain ⟨rel, hrel⟩ := Option.isSome_iff_exists.mp hsome
  have hinv := bfsLoop_invariant (buildGraph chunks) hgid x maxDepth
    (((buildGraph chunks).definitions.flatMap (fun p => p.2)).length + 2)
    [(x, 0)] [x] [] rel
    (List.mem_singleton_self x)
    (by intro e he _; rw [List.mem_singleton.mp he])
    (by simp)
    (by intro e he; rw [List.mem_singleton.mp he]; exact List.mem_singleton_self x)
    (by simp)
    (by simp)
    (by simp)
    (by simp)
    hrel
  have hpairs : findRelatedPairs (buildGraph chunks) x maxDepth =
      insertSort depthLe rel := by
    unfold findRelatedPairs
    rw [hrel]
  refine ⟨?_, ?_, ?_, hsome, ?_⟩
  · -- maxDepth = 0 gives the empty list
    have hzero : bfsLoop (buildGraph chunks) 0
        (((buildGraph chunks).definitions.flatMap (fun p => p.2)).length + 2)
        [x] [(x, 0)] [] = some [] := by
      rw [show bfsLoop (buildGraph chunks) 0
          (((buildGraph chunks).definitions.flatMap (fun p => p.2)).length + 2)
          [x] [(x, 0)] [] =
        match lookupAssoc (buildGraph chunks).chunksById x with
        | none => bfsLoop (buildGraph chunks) 0
            (((buildGraph chunks).definitions.flatMap (fun p => p.2)).length + 1)
            [x] [] []
        | some chunk =>
          if (0 : Nat) ≤ 0 then
            bfsLoop (buildGraph chunks) 0
              (((buildGraph chunks).definitions.flatMap (fun p => p.2)).length + 1)
              [x] []
              (if 0 < 0 then [] ++ [(chunk, 0)] else [])
          else
            bfsLoop (buildGraph chunks) 0
              (((buildGraph chunks).definitions.flatMap (fun p => p.2)).length + 1)
              (enqueueTargets [x] [] (0 + 1)
                (((lookupAssoc (buildGraph chunks).callEdges x).getD []).flatMap
                  (fun fn => (lookupAssoc (buildGraph chunks).definitions fn).getD []))).1
              (enqueueTargets [x] [] (0 + 1)
                (((lookupAssoc (buildGraph chunks).callEdges x).getD []).flatMap
                  (fun fn => (lookupAssoc (buildGraph chunks).definitions fn).getD []))).2
              (if 0 < 0 then [] ++ [(chunk, 0)] else []) from rfl]
      cases lookupAssoc (buildGraph chunks).chunksById x with
      | none => exact bfsLoop_nil _ _ _ _ _
      | some chunk => exact bfsLoop_nil _ _ _ _ _
    unfold findRelated findRelatedPairs
    rw [hzero]
    rfl
  · intro c hc
    obtain ⟨p, hp, hpc⟩ := List.mem_map.mp hc
    rw [hpairs] at hp
    have hpr := (mem_insertSort depthLe).mp hp
    rw [← hpc]
    exact hinv.2 p hpr
  · rw [hpairs]
    have h := insertSort_pairwise depthLe_trans depthLe_total rel
    exact h.imp (by intro a b hab; simpa [depthLe] using hab)
  · unfold findRelated
    rw [hpairs, List.map_map]
    have hperm : List.Perm
        ((insertSort depthLe rel).map (fun p => p.1.id))
        (rel.map (fun p => p.1.id)) :=
      (insertSort_perm depthLe rel).map _
    exact hperm.nodup_iff.mpr hinv.1

/-- A chunk with a name and outgoing call names, for graph instances. -/
def graphChunk (i nm : String) (calls : List String) : CodeChunk :=
  { id := i, filePath := "src/a.ts", startLine := 1, endLine := 2,
    type := "function", name := nm, language := "typescript", code := "x",
    context := ⟨[], [], none, none, [], calls⟩, embedding := none,
    keywords := [], compressed := false, originalSize := none }

/-- C5 witness: on the cyclic call graph A→B→A, `findRelated` with depth 0
is empty, and with depth 3 the traversal terminates with exactly the other
chunk, each node visited at most once. -/
theorem findRelated_spec_witness :
    findRelated (buildGraph [graphChunk "A" "fa" ["fb"],
      graphChunk "B" "fb" ["fa"]]) "A" 0 = [] ∧
    (findRelated (buildGraph [graphChunk "A" "fa" ["fb"],
      graphChunk "B" "fb" ["fa"]]) "A" 3).map (fun c => c.id) = ["B"] ∧
    ((findRelated (buildGraph [graphChunk "A" "fa" ["fb"],
      graphChunk "B" "fb" ["fa"]]) "A" 3).map (fun c => c.id)).Nodup :=
  ⟨(findRelated_spec [graphChunk "A" "fa" ["fb"],
      graphChunk "B" "fb" ["fa"]] "A" 0).1,
   by decide,
   (findRelated_spec [graphChunk "A" "fa" ["fb"],
      graphChunk "B" "fb" ["fa"]] "A" 3).2.2.2.2⟩

/-! ## RAGIndex.compressChunks (src/unnamed/part_019, both pipelines) -/

/-- Result of the external `codeSummarizerAgent.execute` capability. -/
structure SummarizeResult where
  compressed : String
  deriving Repr, DecidableEq

/-- The summarizer capability as an oracle (it may fail per chunk). -/
def Summarizer : Type := CodeChunk → Nat → Except String SummarizeResult

/-- One iteration of the FULL pipeline's `compressChunks` loop.  The source
assigns `chunk.code = result.compressed` and only afterwards
`chunk.originalSize = chunk.code.length`, so `originalSize` receives the
length of the already-compressed code. -/
def compressOneFull (summarize : Summarizer) (threshold : Nat)
    (c : CodeChunk) : CodeChunk × Nat :=
  if threshold < c.code.length then
    match summarize c threshold with
    | .ok r =>
      ({ c with
          code := r.compressed
          compressed := true
          originalSize := some r.compressed.length }, 1)
    | .error _ => (c, 0)
  else (c, 0)

/-- The full pipeline's `compressChunks`: the mutated chunk list and the
number of compressed chunks. -/
def compressChunksFull (summarize : Summarizer) (threshold : Nat)
    (chunks : List CodeChunk) : List CodeChunk × Nat :=
  (chunks.map (fun c => (compressOneFull summarize threshold c).1),
   (chunks.map (fun c => (compressOneFull summarize threshold c).2)).sum)

/-- One chunk of the SIMPLIFIED pipeline's `compressChunks`: compress only
chunks with `threshold < |code| ≤ 30000`; here `originalSize` is captured
before the code is replaced, so it is the pre-compression length. -/
def compressOneSimplified (summarize : Summarizer) (threshold : Nat)
    (c : CodeChunk) : CodeChunk × Nat :=
  if threshold < c.code.length ∧ c.code.length ≤ 30000 then
    match summarize c threshold with
    | .ok r =>
      ({ c with
          code := r.compressed
          compressed := true
          originalSize := some c.code.length }, 1)
    | .error _ => (c, 0)
  else (c, 0)

/-- The simplified pipeline's `compressChunks` (batching via
`Promise.allSettled` is per-chunk independent, so it is a map). -/
def compressChunksSimplified (summarize : Summarizer) (threshold : Nat)
    (chunks : List CodeChunk) : List CodeChunk × Nat :=
  (chunks.map (fun c => (compressOneSimplified summarize threshold c).1),
   (chunks.map (fun c => (compressOneSimplified summarize threshold c).2)).sum)

/-- A chunk whose 501-character code exceeds the default threshold 500. -/
def longChunk : CodeChunk :=
  { testChunk "long" with code := String.mk (List.replicate 501 'a') }

set_option maxRecDepth 4000 in
/-- C7: evaluation at the failing input.  The FULL pipeline's
`compressChunks` records `originalSize = 5` — the length of the compressed
code `"short"` — instead of the pre-compression length 501, because it
assigns `chunk.code` before reading `chunk.code.length`; the simplified
pipeline, with identical input, records the correct 501.  Identity and
location fields are preserved and the chunk is marked in both. -/
theorem compressChunksFull_originalSize_bug :
    (compressChunksFull (fun _ _ => .ok ⟨"short"⟩) 500 [longChunk]).1 =
      [{ longChunk with
          code := "short"
          compressed := true
          originalSize := some 5 }] ∧
    (compressChunksSimplified (fun _ _ => .ok ⟨"short"⟩) 500 [longChunk]).1 =
      [{ longChunk with
          code := "short"
          compressed := true
          originalSize := some 501 }] ∧
    (5 : Nat) ≠ longChunk.code.length := by
  refine ⟨by decide, by decide, by decide⟩

/-! ## RAGIndex (full pipeline, src/unnamed/part_019): search guard -/

/-- The state `build()` leaves behind: chunks plus the two BM25 indexes
wrapped by `HybridSearch`. -/
structure BuiltIndex where
  chunks : List CodeChunk
  codeBM25 : BM25Index
  textBM25 : BM25Index

/-- The `RAGIndex` fields `search` reads: `hybridSearch` is unset until
`build()` ran. -/
structure RAGState where
  hybridSearch : Option BuiltIndex
  stage1TopK : Nat
  stage2TopK : Nat
  stage3TopK : Nat

/-- `HybridSearch.search`: vector + BM25-code + BM25-text, merged by RRF. -/
def hybridSearchRun (sqrt : ℚ → ℚ) (b : BuiltIndex) (query : String)
    (queryEmbedding : List ℚ) (topK : Nat) :
    Except String (List SearchResult) := do
  let vectorResults ← vectorSearch sqrt queryEmbedding b.chunks topK
  pure (reciprocalRankFusion
    [vectorResults, b.codeBM25.search query topK, b.textBM25.search query topK]
    topK RRF_K)

/-- `RAGIndex.search(query)`: throw "Index not built" before `build()`,
otherwise run hybrid search and the 3-stage reranking, returning stage 3
(`generateEmbedding` is the oracle `embedQuery`). -/
def ragSearch (scorer : LLMScorer) (sqrt : ℚ → ℚ)
    (embedQuery : String → List ℚ) (st : RAGState) (query : String) :
    Except String (List LLMScored) :=
  match st.hybridSearch with
  | none => .error "Index not built. Call build() first."
  | some b => do
    let hybridResults ← hybridSearchRun sqrt b query (embedQuery query)
      st.stage1TopK
    let out ← rerankResults scorer sqrt query (embedQuery query) hybridResults
      ⟨st.stage2TopK, st.stage3TopK⟩
    pure out.stage3

/-! ### Chunk provenance through the search stages -/

theorem addScore_chunk_mem (m : List SearchResult) (c : CodeChunk) (s : ℚ) :
    ∀ r ∈ addScore m c s, r.chunk = c ∨ ∃ r0 ∈ m, r.chunk = r0.chunk := by
  induction m with
  | nil =>
    intro r hr
    rw [List.mem_singleton.mp hr]
    exact Or.inl rfl
  | cons q rest ih =>
    intro r hr
    by_cases hq : q.chunk.id = c.id
    · rw [show addScore (q :: rest) c s =
        { chunk := q.chunk, score := q.score + s } :: rest from by
          rw [show addScore (q :: rest) c s =
            if q.chunk.id = c.id then
              { chunk := q.chunk, score := q.score + s } :: rest
            else q :: addScore rest c s from rfl, if_pos hq]] at hr
      rcases List.mem_cons.mp hr with h | h
      · exact Or.inr ⟨q, List.mem_cons_self q rest, by rw [h]⟩
      · exact Or.inr ⟨r, List.mem_cons_of_mem q h, rfl⟩
    · rw [show addScore (q :: rest) c s = q :: addScore rest c s from by
        rw [show addScore (q :: rest) c s =
          if q.chunk.id = c.id then
            { chunk := q.chunk, score := q.score + s } :: rest
          else q :: addScore rest c s from rfl, if_neg hq]] at hr
      rcases List.mem_cons.mp hr with h | h
      · exact Or.inr ⟨q, List.mem_cons_self q rest, by rw [h]⟩
      · rcases ih r h with h | ⟨r0, hr0, hrc⟩
        · exact Or.inl h
        · exact Or.inr ⟨r0, List.mem_cons_of_mem q hr0, hrc⟩

theorem rrfProcess_chunk_mem (k : ℚ) :
    ∀ (results : List SearchResult) (m : List SearchResult) (n : Nat),
      ∀ r ∈ rrfProcess k m n results,
        (∃ r0 ∈ m, r.chunk = r0.chunk) ∨ ∃ r0 ∈ results, r.chunk = r0.chunk := by
  intro results
  induction results with
  | nil => intro m n r hr; exact Or.inl ⟨r, hr, rfl⟩
  | cons q rest ih =>
    intro m n r hr
    rcases ih (addScore m q.chunk (1 / (k + (n + 1)))) (n + 1) r hr with
      ⟨r0, hr0, hrc⟩ | ⟨r0, hr0, hrc⟩
    · rcases addScore_chunk_mem m q.chunk _ r0 hr0 with h | ⟨r1, hr1, hrc1⟩
      · exact Or.inr ⟨q, List.mem_cons_self q rest, by rw [hrc, h]⟩
      · exact Or.inl ⟨r1, hr1, by rw [hrc, hrc1]⟩
    · exact Or.inr ⟨r0, List.mem_cons_of_mem q hr0, hrc⟩

theorem rrfScores_chunk_mem_aux (k : ℚ) :
    ∀ (sets : List (List SearchResult)) (m : List SearchResult),
      ∀ r ∈ sets.foldl (fun m results => rrfProcess k m 0 results) m,
        (∃ r0 ∈ m, r.chunk = r0.chunk) ∨
          ∃ set ∈ sets, ∃ r0 ∈ set, r.chunk = r0.chunk := by
  intro sets
  induction sets with
  | nil => intro m r hr; exact Or.inl ⟨r, hr, rfl⟩
  | cons set rest ih =>
    intro m r hr
    rcases ih (rrfProcess k m 0 set) r hr with ⟨r0, hr0, hrc⟩ | ⟨s, hs, h⟩
    · rcases rrfProcess_chunk_mem k set m 0 r0 hr0 with
        ⟨r1, hr1, hrc1⟩ | ⟨r1, hr1, hrc1⟩
      · exact Or.inl ⟨r1, hr1, by rw [hrc, hrc1]⟩
      · exact Or.inr ⟨set, List.mem_cons_self set rest, r1, hr1, by rw [hrc, hrc1]⟩
    · exact Or.inr ⟨s, List.mem_cons_of_mem set hs, h⟩

theorem reciprocalRankFusion_chunk_mem (sets : List (List SearchResult))
    (topK : Nat) (k : ℚ) :
    ∀ r ∈ reciprocalRankFusion sets topK k,
      ∃ set ∈ sets, ∃ r0 ∈ set, r.chunk = r0.chunk := by
  intro r hr
  have h1 : r ∈ rrfScores sets k :=
    (mem_sortByScoreDesc _).mp (List.mem_of_mem_take hr)
  rcases rrfScores_chunk_mem_aux k sets [] r h1 with ⟨r0, hr0, _⟩ | h
  · exact absurd hr0 (List.not_mem_nil r0)
  · exact h

theorem bm25_search_chunk_mem (idx : BM25Index) (query : String) (topK : Nat) :
    ∀ r ∈ idx.search query topK, r.chunk ∈ idx.chunks := by
  intro r hr
  have h1 : r ∈ (idx.scoredDocs query).filter (fun r => decide (0 < r.score)) :=
    (mem_sortByScoreDesc _).mp (List.mem_of_mem_take hr)
  have h2 : r ∈ idx.scoredDocs query := List.mem_of_mem_filter h1
  obtain ⟨p, hp, hpr⟩ := List.mem_map.mp h2
  have := (List.of_mem_zip hp).2
  rw [← hpr]
  exact this

/-- C6: a search issued before `build()` fails with the explicit
"Index not built. Call build() first." error, whereas a search against a
built index none of whose chunks carries an embedding returns `ok []`
rather than an error (stage 2 filters on embeddings, and stage 3 of an
empty stage 2 is empty). -/
theorem ragSearch_spec (scorer : LLMScorer) (sqrt : ℚ → ℚ)
    (embedQuery : String → List ℚ) (st : RAGState) (query : String) :
    (st.hybridSearch = none →
      ragSearch scorer sqrt embedQuery st query =
        .error "Index not built. Call build() first.") ∧
    (∀ b, st.hybridSearch = some b →
      (∀ c ∈ b.chunks, c.embedding = none) →
      (∀ c ∈ b.codeBM25.chunks, c.embedding = none) →
      (∀ c ∈ b.textBM25.chunks, c.embedding = none) →
      ragSearch scorer sqrt embedQuery st query = .ok []) := by
  constructor
  · intro hnone
    unfold ragSearch
    rw [hnone]
  · intro b hb h1 h2 h3
    have hvec : vectorSearch sqrt (embedQuery query) b.chunks st.stage1TopK =
        .ok [] := by
      unfold vectorSearch
      rw [show b.chunks.filter (fun c => c.embedding.isSome) = [] from by
        rw [List.filter_eq_nil_iff]
        intro c hc
        rw [h1 c hc]
        simp]
      simp only [mapExcept, Bind.bind, Except.bind, pure, Except.pure,
        sortByScoreDesc, insertSort, List.take_nil]
    have hhyb : hybridSearchRun sqrt b query (embedQuery query) st.stage1TopK =
        .ok (reciprocalRankFusion
          [[], b.codeBM25.search query st.stage1TopK,
            b.textBM25.search query st.stage1TopK] st.stage1TopK RRF_K) := by
      unfold hybridSearchRun
      rw [hvec]
      rfl
    have hhemb : ∀ r ∈ reciprocalRankFusion
        [[], b.codeBM25.search query st.stage1TopK,
          b.textBM25.search query st.stage1TopK] st.stage1TopK RRF_K,
        r.chunk.embedding = none := by
      intro r hr
      obtain ⟨set, hset, r0, hr0, hrc⟩ :=
        reciprocalRankFusion_chunk_mem _ _ _ r hr
      rcases List.mem_cons.mp hset with hset | hset
      · rw [hset] at hr0
        exact absurd hr0 (List.not_mem_nil r0)
      rcases List.mem_cons.mp hset with hset | hset
      · rw [hset] at hr0
        rw [hrc]
        exact h2 r0.chunk (bm25_search_chunk_mem _ _ _ r0 hr0)
      rcases List.mem_cons.mp hset with hset | hset
      · rw [hset] at hr0
        rw [hrc]
        exact h3 r0.chunk (bm25_search_chunk_mem _ _ _ r0 hr0)
      · exact absurd hset (List.not_mem_nil set)
    have hstage2 : rerankByEmbedding sqrt (embedQuery query)
        (reciprocalRankFusion
          [[], b.codeBM25.search query st.stage1TopK,
            b.textBM25.search query st.stage1TopK] st.stage1TopK RRF_K)
        st.stage2TopK = .ok [] := by
      unfold rerankByEmbedding
      rw [show (reciprocalRankFusion
          [[], b.codeBM25.search query st.stage1TopK,
            b.textBM25.search query st.stage1TopK] st.stage1TopK RRF_K).filter
          (fun r => r.chunk.embedding.isSome) = [] from by
        rw [List.filter_eq_nil_iff]
        intro r hrm
        rw [hhemb r hrm]
        simp]
      simp only [mapExcept, Bind.bind, Except.bind, pure, Except.pure,
        sortByScoreDesc, insertSort, List.take_nil]
    have hrer : rerankResults scorer sqrt query (embedQuery query)
        (reciprocalRankFusion
          [[], b.codeBM25.search query st.stage1TopK,
            b.textBM25.search query st.stage1TopK] st.stage1TopK RRF_K)
        ⟨st.stage2TopK, st.stage3TopK⟩ =
        .ok ⟨reciprocalRankFusion
          [[], b.codeBM25.search query st.stage1TopK,
            b.textBM25.search query st.stage1TopK] st.stage1TopK RRF_K,
          [], []⟩ := by
      unfold rerankResults
      rw [hstage2]
      simp only [Bind.bind, Except.bind, pure, Except.pure, rerankByLLM,
        List.map_nil, sortByScoreDesc, insertSort, List.take_nil]
    unfold ragSearch
    rw [hb]
    show Except.bind (hybridSearchRun sqrt b query (embedQuery query)
        st.stage1TopK) _ = .ok []
    rw [hhyb]
    show Except.bind (rerankResults scorer sqrt query (embedQuery query) _
        ⟨st.stage2TopK, st.stage3TopK⟩) _ = .ok []
    rw [hrer]
    rfl

/-- A built index over a single chunk that carries no embedding. -/
def ragWIndex : BuiltIndex :=
  ⟨[testChunk "a"],
   BM25Index.build (fun q => q - 1) (fun c => c.code) [testChunk "a"],
   BM25Index.build (fun q => q - 1) (fun c => c.code) [testChunk "a"]⟩

/-- C6 witness: the guard theorem applied to a concrete unbuilt state and a
concrete built, embedding-free state. -/
theorem ragSearch_spec_witness :
    ragSearch (fun _ _ => .error "down") id (fun _ => [])
      ⟨none, 100, 30, 10⟩ "q" =
      .error "Index not built. Call build() first." ∧
    ragSearch (fun _ _ => .error "down") id (fun _ => [])
      ⟨some ragWIndex, 100, 30, 10⟩ "q" = .ok [] := by
  constructor
  · exact (ragSearch_spec (fun _ _ => .error "down") id (fun _ => [])
      ⟨none, 100, 30, 10⟩ "q").1 rfl
  · exact (ragSearch_spec (fun _ _ => .error "down") id (fun _ => [])
      ⟨some ragWIndex, 100, 30, 10⟩ "q").2 ragWIndex rfl
      (by decide) (by decide) (by decide)

/-! ## RAGIndex.build (simplified pipeline, src/unnamed/part_019) -/

/-- `IndexFile`. -/
structure IndexFile where
  path : String
  content : String
  deriving Repr, DecidableEq

/-- The simplified pipeline's configuration. -/
structure SimpleConfig where
  enableCompression : Bool
  compressionThreshold : Nat
  deriving Repr, DecidableEq

/-- The chunk-priority score of `build`'s prioritization:
function > class > method > everything else. -/
def typeScore (t : String) : Nat :=
  if t = "function" then 4
  else if t = "class" then 3
  else if t = "method" then 2
  else 1

/-- The prioritization comparator (`a` may come before `b`): higher type
priority first, then longer code first; stable on full ties. -/
def prioLe (a b : CodeChunk) : Bool :=
  decide (typeScore b.type < typeScore a.type ∨
    (typeScore b.type = typeScore a.type ∧ b.code.length ≤ a.code.length))

theorem prioLe_trans : ∀ a b c : CodeChunk,
    prioLe a b = true → prioLe b c = true → prioLe a c = true := by
  intro a b c hab hbc
  simp only [prioLe, decide_eq_true_eq] at *
  omega

theorem prioLe_total : ∀ a b : CodeChunk,
    prioLe a b = true ∨ prioLe b a = true := by
  intro a b
  simp only [prioLe, decide_eq_true_eq]
  omega

/-- `embedChunks(chunks)` (src/unnamed/part_018): attach an embedding to
every chunk, preserving order and all other fields; the embedding vectors
come from the external API, modelled by the oracle `embed`.  (The
batch/parallel grouping only affects API calls, not the result.) -/
def embedChunks (embed : CodeChunk → List ℚ) (chunks : List CodeChunk) :
    List CodeChunk :=
  chunks.map (fun c => { c with embedding := some (embed c) })

/-- Step 1 of `build`: chunk all files (`chunkFile` needs the external
tree-sitter parser and is the oracle `chunkFn`). -/
def chunkAllFiles (chunkFn : String → String → List CodeChunk)
    (files : List IndexFile) : List CodeChunk :=
  files.flatMap (fun f => chunkFn f.path f.content)

/-- Step 2 of `build`: optional compression. -/
def afterCompression (config : SimpleConfig) (summarize : Summarizer)
    (chunks : List CodeChunk) : List CodeChunk :=
  if config.enableCompression then
    (compressChunksSimplified summarize config.compressionThreshold chunks).1
  else chunks

/-- Step 3 of `build`: when `maxChunksToEmbed` is given (and nonzero — JS
truthiness) and fewer than the chunk count, keep the `maxChunksToEmbed`
highest-priority chunks (stable sort by priority, then slice). -/
def selectChunksToEmbed (maxChunksToEmbed : Option Nat)
    (allChunks : List CodeChunk) : List CodeChunk :=
  match maxChunksToEmbed with
  | none => allChunks
  | some m =>
    if m ≠ 0 ∧ m < allChunks.length then (insertSort prioLe allChunks).take m
    else allChunks

/-- The `RAGIndex` state of the simplified pipeline. -/
structure RAGIndexSimple where
  chunks : List CodeChunk
  deriving Repr, DecidableEq

/-- `getChunks()`. -/
def RAGIndexSimple.getChunks (st : RAGIndexSimple) : List CodeChunk :=
  st.chunks

/-- `build(files, maxChunksToEmbed)` of the simplified pipeline: chunk,
optionally compress, prioritize/limit, then embed the selected chunks. -/
def buildSimplified (chunkFn : String → String → List CodeChunk)
    (summarize : Summarizer) (embed : CodeChunk → List ℚ)
    (config : SimpleConfig) (files : List IndexFile)
    (maxChunksToEmbed : Option Nat) : RAGIndexSimple :=
  ⟨embedChunks embed (selectChunksToEmbed maxChunksToEmbed
    (afterCompression config summarize (chunkAllFiles chunkFn files)))⟩

/-- C10 (amended: the limit must be nonzero — the source guard
`if (maxChunksToEmbed && ...)` is falsy at 0, so `build(files, 0)` keeps
every chunk, see the counterexample): in the simplified pipeline, when
`build(files, maxChunksToEmbed)` is called with a NONZERO limit and
chunking yields `> maxChunksToEmbed` chunks, `getChunks()` returns exactly
the embedded first `maxChunksToEmbed` chunks of the stable priority sort
(type priority function > class > method > else, then longer code first) of
all extracted (and optionally compressed) chunks: the index has exactly
`maxChunksToEmbed` chunks, every retained chunk has priority at least that
of every dropped one, and every retained chunk comes from the extracted
chunks — the rest are absent. -/
theorem buildSimplified_limits
    (chunkFn : String → String → List CodeChunk) (summarize : Summarizer)
    (embed : CodeChunk → List ℚ) (config : SimpleConfig)
    (files : List IndexFile) (m : Nat) (A sortedA : List CodeChunk)
    (hA : A = afterCompression config summarize (chunkAllFiles chunkFn files))
    (hs : sortedA = insertSort prioLe A)
    (hm : m ≠ 0) (hlen : m < A.length) :
    (buildSimplified chunkFn summarize embed config files (some m)).getChunks
        = embedChunks embed (sortedA.take m) ∧
    (buildSimplified chunkFn summarize embed config files
        (some m)).getChunks.length = m ∧
    List.Perm sortedA A ∧
    sortedA.Pairwise (fun a b => prioLe a b = true) ∧
    (∀ a ∈ sortedA.take m, ∀ b ∈ sortedA.drop m, prioLe a b = true) ∧
    (∀ c ∈ (buildSimplified chunkFn summarize embed config files
        (some m)).getChunks,
      ∃ c0 ∈ A, c = { c0 with embedding := some (embed c0) }) := by
  have hget : (buildSimplified chunkFn summarize embed config files
      (some m)).getChunks = embedChunks embed (sortedA.take m) := by
    simp only [buildSimplified, RAGIndexSimple.getChunks, selectChunksToEmbed]
    rw [← hA, if_pos (⟨hm, hlen⟩ : m ≠ 0 ∧ m < A.length), hs]
  have hsortlen : sortedA.length = A.length := by
    rw [hs]; exact length_insertSort prioLe A
  have hpair : sortedA.Pairwise (fun a b => prioLe a b = true) := by
    rw [hs]; exact insertSort_pairwise prioLe_trans prioLe_total A
  have hcross : ∀ a ∈ sortedA.take m, ∀ b ∈ sortedA.drop m,
      prioLe a b = true := by
    have h2 : (sortedA.take m ++ sortedA.drop m).Pairwise
        (fun a b => prioLe a b = true) := by
      rw [List.take_append_drop]; exact hpair
    exact fun a ha b hb => (List.pairwise_append.mp h2).2.2 a ha b hb
  refine ⟨hget, ?_, ?_, hpair, hcross, ?_⟩
  · rw [hget]
    simp only [embedChunks, List.length_map, List.length_take, hsortlen]
    omega
  · rw [hs]; exact insertSort_perm prioLe A
  · intro c hc
    rw [hget] at hc
    simp only [embedChunks, List.mem_map] at hc
    obtain ⟨c0, hc0, hceq⟩ := hc
    refine ⟨c0, ?_, hceq.symm⟩
    have hmem : c0 ∈ sortedA := List.mem_of_mem_take hc0
    rw [hs] at hmem
    exact (mem_insertSort prioLe).mp hmem

/-- A method-typed chunk for the build witness. -/
def c10M : CodeChunk := { testChunk "m" with type := "method" }

/-- A function-typed chunk for the build witness. -/
def c10F : CodeChunk := testChunk "f"

/-- A class-typed chunk for the build witness. -/
def c10C : CodeChunk := { testChunk "c" with type := "class" }

def c10Files : List IndexFile := [⟨"a.ts", ""⟩]

def c10ChunkFn : String → String → List CodeChunk :=
  fun _ _ => [c10M, c10F, c10C]

def c10Sum : Summarizer := fun _ _ => Except.error ""

def c10Embed : CodeChunk → List ℚ := fun _ => [1]

def c10Config : SimpleConfig := ⟨false, 500⟩

def c10A : List CodeChunk := [c10M, c10F, c10C]

def c10Sorted : List CodeChunk := [c10F, c10C, c10M]

/-- C10 counterexample to the original claim: `build(files, 0)` with 3
extracted chunks (more than the limit 0) does NOT drop the chunks beyond
the limit — the truthiness guard `maxChunksToEmbed && ...` is falsy at 0,
limiting is skipped, and `getChunks()` returns all 3 chunks embedded. -/
theorem buildSimplified_zero_limit :
    (buildSimplified c10ChunkFn c10Sum c10Embed c10Config c10Files
        (some 0)).getChunks = embedChunks c10Embed c10A ∧
    (buildSimplified c10ChunkFn c10Sum c10Embed c10Config c10Files
        (some 0)).getChunks.length = 3 := by
  constructor
  · rfl
  · rfl

/-- C10 witness: three chunks (method, function, class) with a limit of 2
keep exactly the function and class chunks, embedded, in priority order. -/
theorem buildSimplified_limits_witness :
    (2 ≠ 0 ∧ 2 < c10A.length) ∧
    (buildSimplified c10ChunkFn c10Sum c10Embed c10Config c10Files
        (some 2)).getChunks = embedChunks c10Embed (c10Sorted.take 2) ∧
    (buildSimplified c10ChunkFn c10Sum c10Embed c10Config c10Files
        (some 2)).getChunks.length = 2 ∧
    embedChunks c10Embed (c10Sorted.take 2) =
      [{ c10F with embedding := some [1] }, { c10C with embedding := some [1] }] := by
  have h := buildSimplified_limits c10ChunkFn c10Sum c10Embed c10Config
    c10Files 2 c10A c10Sorted rfl (by decide) (by decide) (by decide)
  exact ⟨⟨by decide, by decide⟩, h.1, h.2.1, rfl⟩
